import Mathlib

/-!
# Ship-track map viewer (src/src/App.js)

A shallow embedding of the data transformation and playback logic of `App.js`:

* `parseShipData` (the body of the second effect of `App`): grouping of CSV rows by
  `site_name` into a plain JavaScript object and the per-track `sort`;
* `addPortsLayer`, `addShipsLayer` / `moveShip` of `MapComponent`: the calls issued to the
  map renderer, with `setTimeout(moveShip, 1)` modelled by a first-in first-out timer queue;
* the render condition of `App`.

JavaScript built-ins are not repository code.  `parseFloat` and `new Date(string)` are taken as
parameters (`Builtins`); `Array.prototype.sort` is taken as a parameter constrained by the
ECMAScript contract (`ArraySort`); the part of `Object.prototype` that matters to the program
(the inherited property names) is written out (`objectPrototypeNames`).
-/

namespace ShipMap

/-! ## JavaScript values -/

/-- A JavaScript `Date`: its time value in milliseconds, `none` for an Invalid Date (whose
time value is NaN). -/
structure JSDate where
  time : Option Int
deriving DecidableEq, Repr

/-- The result of `a - b` on two dates (both are converted to their time values), `none` for
NaN.  The difference of two valid time values is represented exactly; its sign, the only thing a
sort looks at, is the sign of the JavaScript number. -/
def JSDate.sub (a b : JSDate) : Option Int :=
  match a.time, b.time with
  | some x, some y => some (x - y)
  | _, _ => none

/-- The built-in functions the program calls on CSV cells: `parseFloat` and `new Date(string)`.
The numeric type is left abstract. -/
structure Builtins (Num : Type) where
  parseFloat : String → Num
  newDate : String → JSDate

/-! ## Array.prototype.sort -/

/-- The abstract operation SortCompare on a comparator result: NaN is treated as `+0`. -/
def sortCompare {α : Type} (cmp : α → α → Option Int) (x y : α) : Int :=
  (cmp x y).getD 0

/-- A comparator is consistent on the values of `l` (ECMAScript, Array.prototype.sort): it never
returns NaN and induces a total preorder on them. -/
structure Consistent {α : Type} (cmp : α → α → Option Int) (l : List α) : Prop where
  notNaN : ∀ a ∈ l, ∀ b ∈ l, (cmp a b).isSome = true
  flip : ∀ a ∈ l, ∀ b ∈ l, (sortCompare cmp a b < 0 ↔ 0 < sortCompare cmp b a)
  trans : ∀ a ∈ l, ∀ b ∈ l, ∀ c ∈ l,
    sortCompare cmp a b ≤ 0 → sortCompare cmp b c ≤ 0 → sortCompare cmp a c ≤ 0

/-- Insert `x` in front of the first element that `x` is strictly smaller than. -/
def insertSorted {α : Type} (cmp : α → α → Option Int) (x : α) : List α → List α
  | [] => [x]
  | e :: l => if sortCompare cmp x e < 0 then x :: e :: l else e :: insertSorted cmp x l

/-- The reference stable sort: the elements are inserted one by one, from the first to the
last, each behind the elements that are not greater. -/
def stableSort {α : Type} (cmp : α → α → Option Int) (l : List α) : List α :=
  l.foldl (fun acc x => insertSorted cmp x acc) []

/-- An implementation of `Array.prototype.sort(comparefn)`, a built-in of the engine. -/
structure ArraySort where
  sort : {α : Type} → (α → α → Option Int) → List α → List α

/-- What ECMAScript guarantees about `Array.prototype.sort(comparefn)`: the result is always a
rearrangement of the array, and when the comparator is consistent on the array the result is
the stable sorted order.  For an inconsistent comparator the order is implementation-defined,
so nothing more is required. -/
structure ArraySort.Conforms (S : ArraySort) : Prop where
  perm : ∀ {α : Type} (cmp : α → α → Option Int) (l : List α), (S.sort cmp l).Perm l
  stable : ∀ {α : Type} (cmp : α → α → Option Int) (l : List α),
    Consistent cmp l → S.sort cmp l = stableSort cmp l

/-- Binary search for the position at which `pivot` is inserted into `arr`: the loop
`while (left < right) { mid = left + ((right - left) >> 1); if (order < 0) right = mid; else
left = mid + 1; }` of a binary insertion sort.  The first argument bounds the iterations. -/
def searchInsertionPoint {α : Type} (cmp : α → α → Option Int) (pivot : α) (arr : List α) :
    Nat → Nat → Nat → Nat
  | 0, left, _ => left
  | fuel + 1, left, right =>
    if left < right then
      let mid := left + (right - left) / 2
      match arr[mid]? with
      | some e =>
        if sortCompare cmp pivot e < 0 then searchInsertionPoint cmp pivot arr fuel left mid
        else searchInsertionPoint cmp pivot arr fuel (mid + 1) right
      | none => left
    else left

/-- Insert `pivot` into `arr` at the position found by binary search. -/
def binaryInsert {α : Type} (cmp : α → α → Option Int) (pivot : α) (arr : List α) : List α :=
  let k := searchInsertionPoint cmp pivot arr arr.length 0 arr.length
  arr.take k ++ pivot :: arr.drop k

/-- Binary insertion sort, the algorithm TimSort-based engines apply to short arrays. -/
def binaryInsertionSort {α : Type} (cmp : α → α → Option Int) (l : List α) : List α :=
  l.foldl (fun acc x => binaryInsert cmp x acc) []

/-- The reference stable sort as an implementation of `sort`. -/
def referenceSort : ArraySort := ⟨fun cmp l => stableSort cmp l⟩

/-- Binary insertion sort as an implementation of `sort`. -/
def binaryInsertion : ArraySort := ⟨fun cmp l => binaryInsertionSort cmp l⟩

/-- Sorted with respect to a comparator: no element is greater than a later one. -/
def SortedBy {α : Type} (cmp : α → α → Option Int) (l : List α) : Prop :=
  l.Pairwise fun a b => sortCompare cmp a b ≤ 0

/-! ## Rows and samples -/

/-- A row of the ship CSV as produced by the CSV parser with `header: true`: raw string
cells. -/
structure ShipRow where
  site_name : String
  location_latitude : String
  location_longitude : String
  heading : String
  ec_timestamp : String
deriving DecidableEq, Repr

/-- A row of the port CSV: raw string cells. -/
structure PortRow where
  port_name : String
  geo_location_longitude : String
  geo_location_latitude : String
deriving DecidableEq, Repr

/-- The object pushed onto a track by `parseShipData`. -/
structure Sample (Num : Type) where
  location_latitude : Num
  location_longitude : Num
  heading : Num
  ec_timestamp : JSDate
deriving DecidableEq, Repr

/-- The comparator `(a, b) => a.ec_timestamp - b.ec_timestamp`. -/
def byTimestamp {Num : Type} (a b : Sample Num) : Option Int :=
  a.ec_timestamp.sub b.ec_timestamp

/-- The typed sample built from a row: the object literal of `parseShipData`. -/
def toSample {Num : Type} (B : Builtins Num) (row : ShipRow) : Sample Num :=
  { location_latitude := B.parseFloat row.location_latitude
    location_longitude := B.parseFloat row.location_longitude
    heading := B.parseFloat row.heading
    ec_timestamp := B.newDate row.ec_timestamp }

/-! ## The plain object `shipData` -/

/-- The property names a plain object `{}` inherits from `Object.prototype`.  Reading one of
them on `shipData` yields a function (or, for `__proto__`, the prototype object): a truthy
value that has no `push` method. -/
def objectPrototypeNames : List String :=
  ["constructor", "__defineGetter__", "__defineSetter__", "hasOwnProperty",
   "__lookupGetter__", "__lookupSetter__", "isPrototypeOf", "propertyIsEnumerable",
   "toString", "valueOf", "__proto__", "toLocaleString"]

/-- The own properties of the object `shipData`, in creation order: ship identifier and
track. -/
abbrev ShipData (Num : Type) := List (String × List (Sample Num))

/-- The own property keys of an object, in creation order. -/
def ownKeys {β : Type} (o : List (String × β)) : List String :=
  o.map Prod.fst

/-- The value of a decimal digit string. -/
def digitsValue (cs : List Char) : Nat :=
  cs.foldl (fun n c => 10 * n + (c.toNat - 48)) 0

/-- The array index a property key denotes, if any: a canonical numeric string (no leading
zero, no sign) whose value is at most `2^32 - 2`. -/
def arrayIndex? (key : String) : Option Nat :=
  let cs := key.data
  if cs ≠ [] ∧ cs.all Char.isDigit ∧ (cs.head? ≠ some '0' ∨ cs.length = 1)
      ∧ digitsValue cs ≤ 4294967294 then
    some (digitsValue cs)
  else none

/-- The result of `Object.keys(o)`: the array-index keys in ascending numeric order, then
the other keys in creation order. -/
def objectKeys {β : Type} (o : List (String × β)) : List String :=
  ((ownKeys o).filter fun k => (arrayIndex? k).isSome).insertionSort
      (fun a b => (arrayIndex? a).getD 0 ≤ (arrayIndex? b).getD 0)
    ++ (ownKeys o).filter fun k => !(arrayIndex? k).isSome

/-- The own property `o[key]`, if there is one. -/
def getOwn {β : Type} (o : List (String × β)) (key : String) : Option β :=
  o.lookup key

/-- Apply `f` to the value of the own property `key`. -/
def updateOwn {β : Type} (o : List (String × β)) (key : String) (f : β → β) :
    List (String × β) :=
  o.map fun e => if e.1 = key then (e.1, f e.2) else e

/-! ## parseShipData -/

/-- The body of `parsedShipData.forEach((row) => ...)`:
`if (!shipData[shipId]) shipData[shipId] = []; shipData[shipId].push(sample)`.
An own property holds an array (truthy) and the sample is pushed.  Otherwise, when `shipId`
names an inherited property, `shipData[shipId]` is truthy, no array is created and calling
the missing `push` throws a TypeError.  Otherwise the array is created and the sample
pushed. -/
def pushRow {Num : Type} (B : Builtins Num) (shipData : ShipData Num) (row : ShipRow) :
    Except String (ShipData Num) :=
  let shipId := row.site_name
  if (getOwn shipData shipId).isSome then
    .ok (updateOwn shipData shipId fun track => track ++ [toSample B row])
  else if shipId ∈ objectPrototypeNames then
    .error "TypeError: shipData[shipId].push is not a function"
  else
    .ok (shipData ++ [(shipId, [toSample B row])])

/-- The first loop of `parseShipData`: every row in turn, stopping at a thrown exception. -/
def groupRows {Num : Type} (B : Builtins Num) :
    ShipData Num → List ShipRow → Except String (ShipData Num)
  | shipData, [] => .ok shipData
  | shipData, row :: rows =>
    match pushRow B shipData row with
    | .ok next => groupRows B next rows
    | .error e => .error e

/-- The second loop of `parseShipData`:
`Object.keys(shipData).forEach((shipId) => shipData[shipId].sort(byTimestamp))`. -/
def sortTracks {Num : Type} (S : ArraySort) (shipData : ShipData Num) : ShipData Num :=
  (objectKeys shipData).foldl
    (fun o shipId => updateOwn o shipId fun track => S.sort byTimestamp track) shipData

/-- The mapping `parseShipData` hands to `setShipData`, or the exception that ends it before
`setShipData` is reached. -/
def parseShipData {Num : Type} (B : Builtins Num) (S : ArraySort) (rows : List ShipRow) :
    Except String (ShipData Num) :=
  match groupRows B [] rows with
  | .ok shipData => .ok (sortTracks S shipData)
  | .error e => .error e

/-- The tracks of `rows` as the specification describes them: the typed samples of the rows
whose `site_name` is `shipId`, in row order. -/
def samplesOf {Num : Type} (B : Builtins Num) (rows : List ShipRow) (shipId : String) :
    List (Sample Num) :=
  (rows.filter fun row => row.site_name = shipId).map (toSample B)

/-- The comparison `a <= b` of two dates, false when either is invalid. -/
def JSDate.le (a b : JSDate) : Prop :=
  match a.time, b.time with
  | some x, some y => x ≤ y
  | _, _ => False

/-! ## The map renderer -/

/-- A GeoJSON point feature: `geometry.coordinates` and `properties.name`. -/
structure Feature (Num : Type) where
  coordinates : List Num
  name : String
deriving DecidableEq, Repr

/-- The two imported image resources. -/
inductive Image where
  | portimgssrc
  | shipimagesrc
deriving DecidableEq, Repr

/-- A call issued to the map renderer.  A layer is recorded with its id, its source and its
`icon-image`. -/
inductive MapCall (Num : Type) where
  | addSource (id : String) (features : List (Feature Num))
  | addLayer (id : String) (source : String) (iconImage : String)
  | loadImage (src : Image)
  | setData (id : String) (features : List (Feature Num))
deriving DecidableEq, Repr

/-- A pending `setTimeout(moveShip, 1)`: the closure of one ship (`shipId`, `dataPoints`) and
the value of its variable `currentIndex`. -/
structure Timer (Num : Type) where
  shipId : String
  dataPoints : List (Sample Num)
  currentIndex : Nat
deriving DecidableEq, Repr

/-- The state `MapComponent` acts on: the sources and layers of the map, the calls issued so
far, the `shipTime` state (the date whose string is displayed) and the queue of pending
timers.  All timers are set with the same delay, so they fire in the order they were set. -/
structure MapState (Num : Type) where
  sources : List (String × List (Feature Num))
  layers : List String
  calls : List (MapCall Num)
  shipTime : Option JSDate
  timers : List (Timer Num)
deriving DecidableEq, Repr

/-- The map right after construction: no source, no layer, nothing pending. -/
def MapState.initial {Num : Type} : MapState Num :=
  { sources := [], layers := [], calls := [], shipTime := none, timers := [] }

/-- The result of `map.getSource(id)`: the data of the source, or `none` for undefined. -/
def MapState.getSource {Num : Type} (m : MapState Num) (id : String) :
    Option (List (Feature Num)) :=
  m.sources.lookup id

/-- The effect of `map.addSource(id, { type: 'geojson', data: FeatureCollection })`. -/
def MapState.addSource {Num : Type} (m : MapState Num) (id : String)
    (features : List (Feature Num)) : MapState Num :=
  { m with sources := m.sources ++ [(id, features)]
           calls := m.calls ++ [MapCall.addSource id features] }

/-- The effect of `map.addLayer({ id, source, layout: { 'icon-image': iconImage, ... } })`;
a layer id that exists already is not added again. -/
def MapState.addLayer {Num : Type} (m : MapState Num) (id source iconImage : String) :
    MapState Num :=
  { m with layers := if id ∈ m.layers then m.layers else m.layers ++ [id]
           calls := m.calls ++ [MapCall.addLayer id source iconImage] }

/-- The effect of `map.loadImage(src, callback)`: the request is issued; the callback runs
when the image has arrived and is not modelled. -/
def MapState.loadImage {Num : Type} (m : MapState Num) (src : Image) : MapState Num :=
  { m with calls := m.calls ++ [MapCall.loadImage src] }

/-- The effect of `source.setData(FeatureCollection)` on the source `id`. -/
def MapState.setData {Num : Type} (m : MapState Num) (id : String)
    (features : List (Feature Num)) : MapState Num :=
  { m with sources := updateOwn m.sources id fun _ => features
           calls := m.calls ++ [MapCall.setData id features] }

/-- The feature `addPortsLayer` builds for a port row. -/
def portFeature {Num : Type} (B : Builtins Num) (port : PortRow) : Feature Num :=
  { coordinates := [B.parseFloat port.geo_location_longitude,
                    B.parseFloat port.geo_location_latitude]
    name := port.port_name }

/-- The function `addPortsLayer` of `MapComponent`. -/
def addPortsLayer {Num : Type} (B : Builtins Num) (portData : List PortRow)
    (m : MapState Num) : MapState Num :=
  match m.getSource "ports" with
  | some _ => m
  | none =>
    ((m.addSource "ports" (portData.map (portFeature B))).addLayer "ports" "ports"
      "port-icon").loadImage Image.portimgssrc

/-- The feature `moveShip` builds for the current point. -/
def shipFeature {Num : Type} (shipId : String) (currentPoint : Sample Num) : Feature Num :=
  { coordinates := [currentPoint.location_longitude, currentPoint.location_latitude]
    name := shipId }

/-- One call of `moveShip` for the closure `t`.  The `console.log` lines are left out. -/
def moveShip {Num : Type} (t : Timer Num) (m : MapState Num) : MapState Num :=
  match t.dataPoints[t.currentIndex]? with
  | none => m
  | some currentPoint =>
    let m1 := { m with shipTime := some currentPoint.ec_timestamp }
    let m2 :=
      match m1.getSource t.shipId with
      | some _ => m1.setData t.shipId [shipFeature t.shipId currentPoint]
      | none =>
        ((m1.addSource t.shipId [shipFeature t.shipId currentPoint]).addLayer t.shipId
          t.shipId "ship-icon").loadImage Image.shipimagesrc
    if t.currentIndex + 1 < 1440 then
      { m2 with timers := m2.timers ++ [{ t with currentIndex := t.currentIndex + 1 }] }
    else m2

/-- The function `addShipsLayer` of `MapComponent`: for every key of `shipData` the closure
is created with `currentIndex = 0` and `moveShip()` is called once. -/
def addShipsLayer {Num : Type} (shipData : ShipData Num) (m : MapState Num) : MapState Num :=
  if (objectKeys shipData).length = 0 then m
  else
    (objectKeys shipData).foldl
      (fun m shipId => moveShip ⟨shipId, (getOwn shipData shipId).getD [], 0⟩ m) m

/-- The event loop: at most `n` pending timers fire, oldest first. -/
def runTimers {Num : Type} : Nat → MapState Num → MapState Num
  | 0, m => m
  | n + 1, m =>
    match m.timers with
    | [] => m
    | t :: rest => runTimers n (moveShip t { m with timers := rest })

/-- The handler of `style.load` on a fresh map: `addPortsLayer(); addShipsLayer();`. -/
def styleLoad {Num : Type} (B : Builtins Num) (portData : List PortRow)
    (shipData : ShipData Num) : MapState Num :=
  addShipsLayer shipData (addPortsLayer B portData MapState.initial)

/-- A whole playback run: the `style.load` handler, then the timers until none is pending
(`1441` callbacks per ship are enough, see `playback_spec`). -/
def playback {Num : Type} (B : Builtins Num) (portData : List PortRow)
    (shipData : ShipData Num) : MapState Num :=
  runTimers (1441 * shipData.length) (styleLoad B portData shipData)

/-- The calls that concern the source or layer `id`. -/
def callsOn {Num : Type} (id : String) (calls : List (MapCall Num)) : List (MapCall Num) :=
  calls.filter fun c =>
    match c with
    | MapCall.addSource i _ => i = id
    | MapCall.addLayer i _ _ => i = id
    | MapCall.setData i _ => i = id
    | MapCall.loadImage _ => false

/-- The positions pushed to the renderer by a list of calls: the coordinates of the features
handed to `addSource` and `setData`. -/
def pushedPositions {Num : Type} (calls : List (MapCall Num)) : List (List Num) :=
  calls.flatMap fun c =>
    match c with
    | MapCall.addSource _ fs => fs.map Feature.coordinates
    | MapCall.setData _ fs => fs.map Feature.coordinates
    | _ => []

/-- The number of `loadImage` calls for the ship icon. -/
def shipIconLoads {Num : Type} (calls : List (MapCall Num)) : Nat :=
  (calls.filter fun c =>
    match c with
    | MapCall.loadImage Image.shipimagesrc => true
    | _ => false).length

/-- The calls issued after `addPortsLayer`, by `addShipsLayer` and the timers. -/
def playbackCalls {Num : Type} (B : Builtins Num) (portData : List PortRow)
    (shipData : ShipData Num) : List (MapCall Num) :=
  (playback B portData shipData).calls.drop
    (addPortsLayer B portData MapState.initial).calls.length

/-! ## App -/

/-- What `App` returns. -/
inductive View (Num : Type) where
  | loading
  | mapComponent (portData : List PortRow) (shipData : ShipData Num)
deriving DecidableEq, Repr

/-- The return statement of `App`:
`portData.length > 0 && Object.keys(shipData).length > 0 ? <MapComponent/> : Loading`. -/
def App {Num : Type} (portData : List PortRow) (shipData : ShipData Num) : View Num :=
  if portData.length > 0 ∧ (objectKeys shipData).length > 0 then
    View.mapComponent portData shipData
  else View.loading

/-- The `shipData` state once the effect has run: the mapping handed to `setShipData`, or the
initial `{}` when `parseShipData` threw before reaching it. -/
def shipDataState {Num : Type} (B : Builtins Num) (S : ArraySort) (rows : List ShipRow) :
    ShipData Num :=
  match parseShipData B S rows with
  | .ok shipData => shipData
  | .error _ => []

/-- What `App` renders once both CSV files have been parsed into `portRows` and `shipRows`. -/
def appView {Num : Type} (B : Builtins Num) (S : ArraySort) (portRows : List PortRow)
    (shipRows : List ShipRow) : View Num :=
  App portRows (shipDataState B S shipRows)

/-! ## Built-ins on the cells of the examples -/

/-- A decimal number `digits / 10 ^ scale`, for the numeric cells of the examples. -/
structure Decimal where
  digits : Int
  scale : Nat
deriving DecidableEq, Repr

/-- The built-ins on the cells used in the examples: `parseFloat` on two decimal literals
(`none` is NaN) and `new Date` on ISO date-time strings.  The only other cell of the examples
is the empty one, which gives NaN and Invalid Date. -/
def exampleBuiltins : Builtins (Option Decimal) where
  parseFloat := fun s =>
    if s = "72.5" then some ⟨725, 1⟩ else if s = "18.9" then some ⟨189, 1⟩ else none
  newDate := fun s =>
    if s = "2024-05-01T00:00:00Z" then ⟨some 1714521600000⟩
    else if s = "2024-05-01T00:01:00Z" then ⟨some 1714521660000⟩
    else if s = "2024-05-01T00:02:00Z" then ⟨some 1714521720000⟩
    else if s = "2024-05-01T00:03:00Z" then ⟨some 1714521780000⟩
    else if s = "2024-05-01T00:04:00Z" then ⟨some 1714521840000⟩
    else if s = "2024-05-01T00:05:00Z" then ⟨some 1714521900000⟩
    else ⟨none⟩

/-- A ship row of the examples: latitude `18.9`, longitude `72.5`, empty heading. -/
def exampleRow (shipId timestamp : String) : ShipRow :=
  { site_name := shipId, location_latitude := "18.9", location_longitude := "72.5",
    heading := "", ec_timestamp := timestamp }

/-- The sample of `exampleRow` for a valid date. -/
def exampleSample (time : Int) : Sample (Option Decimal) :=
  { location_latitude := some ⟨189, 1⟩, location_longitude := some ⟨725, 1⟩, heading := none,
    ec_timestamp := ⟨some time⟩ }

/-- Eight rows of ship `A`: the fifth has an empty timestamp cell, the sixth and the eighth
carry the same timestamp (00:03) and differ in their coordinates. -/
def tieRows : List ShipRow :=
  [exampleRow "A" "2024-05-01T00:00:00Z", exampleRow "A" "2024-05-01T00:01:00Z",
   exampleRow "A" "2024-05-01T00:02:00Z", exampleRow "A" "2024-05-01T00:05:00Z",
   exampleRow "A" "", exampleRow "A" "2024-05-01T00:03:00Z",
   exampleRow "A" "2024-05-01T00:04:00Z",
   { site_name := "A", location_latitude := "", location_longitude := "", heading := "",
     ec_timestamp := "2024-05-01T00:03:00Z" }]

/-! ## What a closure still has to show -/

/-- The samples a closure has yet to show: those at `currentIndex` and after, below the cap of
1440. -/
def Timer.remaining {Num : Type} (t : Timer Num) : List (Sample Num) :=
  (t.dataPoints.take 1440).drop t.currentIndex

/-- The calls on the source `shipId` by which the samples `points` are shown one after the
other: the first creates source and layer unless the source is present, the others replace
the data of the source. -/
def shipCalls {Num : Type} (shipId : String) (present : Bool) :
    List (Sample Num) → List (MapCall Num)
  | [] => []
  | p :: ps =>
    (if present then [MapCall.setData shipId [shipFeature shipId p]]
     else [MapCall.addSource shipId [shipFeature shipId p],
           MapCall.addLayer shipId shipId "ship-icon"])
      ++ ps.map fun q => MapCall.setData shipId [shipFeature shipId q]

/-- The calls on `id` that the pending timers of `m` are going to issue. -/
def pendingCallsOn {Num : Type} (id : String) (m : MapState Num) : List (MapCall Num) :=
  m.timers.flatMap fun t =>
    if t.shipId = id then shipCalls id (m.getSource id).isSome t.remaining else []

/-- The number of pending timers that are going to create their source. -/
def pendingLoads {Num : Type} (m : MapState Num) : Nat :=
  m.timers.countP fun t => !t.remaining.isEmpty && (m.getSource t.shipId).isNone

/-- A bound on the number of callbacks until no timer is pending. -/
def pendingWork {Num : Type} (timers : List (Timer Num)) : Nat :=
  (timers.map fun t => t.remaining.length + 1).sum

/-- The closures `addShipsLayer` creates, in the order of `Object.keys`. -/
def shipClosures {Num : Type} (shipData : ShipData Num) : List (Timer Num) :=
  (objectKeys shipData).map fun shipId => ⟨shipId, (getOwn shipData shipId).getD [], 0⟩

section sortLemmas
variable {α : Type} (cmp : α → α → Option Int)

theorem Consistent.mono {l l2 : List α} (h : Consistent cmp l) (hsub : ∀ a ∈ l2, a ∈ l) :
    Consistent cmp l2 :=
  ⟨fun a ha b hb => h.notNaN a (hsub a ha) b (hsub b hb),
   fun a ha b hb => h.flip a (hsub a ha) b (hsub b hb),
   fun a ha b hb c hc => h.trans a (hsub a ha) b (hsub b hb) c (hsub c hc)⟩

theorem insertSorted_perm (x : α) (l : List α) : (insertSorted cmp x l).Perm (x :: l) := by
  induction l with
  | nil => exact List.Perm.refl _
  | cons e l ih =>
    unfold insertSorted
    split
    · exact List.Perm.refl _
    · exact (List.Perm.cons e ih).trans (List.Perm.swap x e l)

theorem foldl_insertSorted_perm (l acc : List α) :
    (l.foldl (fun acc x => insertSorted cmp x acc) acc).Perm (acc ++ l) := by
  induction l generalizing acc with
  | nil => simp
  | cons x l ih =>
    simp only [List.foldl_cons]
    refine (ih _).trans ?_
    have h1 := insertSorted_perm cmp x acc
    refine (List.Perm.append_right l h1).trans ?_
    simp only [List.cons_append]
    exact (List.perm_middle).symm

theorem stableSort_perm (l : List α) : (stableSort cmp l).Perm l := by
  have h := foldl_insertSorted_perm cmp l []
  simpa [stableSort] using h

/-- In a sorted list whose head is greater than `x`, every element is greater than `x`. -/
theorem lt_all_of_lt_head {x e : α} {l : List α} (hc : Consistent cmp (x :: e :: l))
    (hs : SortedBy cmp (e :: l)) (hlt : sortCompare cmp x e < 0) :
    ∀ y ∈ e :: l, sortCompare cmp x y < 0 := by
  intro y hy
  rcases List.mem_cons.1 hy with rfl | hyl
  · exact hlt
  · have hey : sortCompare cmp e y ≤ 0 := (List.pairwise_cons.1 hs).1 y hyl
    have hxm : x ∈ x :: e :: l := List.mem_cons_self _ _
    have hem : e ∈ x :: e :: l := List.mem_cons_of_mem _ (List.mem_cons_self _ _)
    have hym : y ∈ x :: e :: l := List.mem_cons_of_mem _ (List.mem_cons_of_mem _ hyl)
    by_contra hn
    have h1 : ¬ 0 < sortCompare cmp y x := fun h => hn ((hc.flip x hxm y hym).2 h)
    have h2 : sortCompare cmp e x ≤ 0 := hc.trans e hem y hym x hxm hey (not_lt.1 h1)
    have h3 : 0 < sortCompare cmp e x := (hc.flip x hxm e hem).1 hlt
    omega

theorem insertSorted_sorted {x : α} {l : List α} (hc : Consistent cmp (x :: l))
    (hs : SortedBy cmp l) : SortedBy cmp (insertSorted cmp x l) := by
  induction l with
  | nil => simp [insertSorted, SortedBy]
  | cons e l ih =>
    unfold insertSorted
    split
    · rename_i hlt
      refine List.pairwise_cons.2 ⟨fun y hy => ?_, hs⟩
      exact le_of_lt (lt_all_of_lt_head cmp hc hs hlt y hy)
    · rename_i hnlt
      have hxm : x ∈ x :: e :: l := List.mem_cons_self _ _
      have hem : e ∈ x :: e :: l := List.mem_cons_of_mem _ (List.mem_cons_self _ _)
      have hc2 : Consistent cmp (x :: l) := hc.mono cmp (by
        intro a ha
        rcases List.mem_cons.1 ha with rfl | h
        · exact hxm
        · exact List.mem_cons_of_mem _ (List.mem_cons_of_mem _ h))
      have ih2 := ih hc2 (List.pairwise_cons.1 hs).2
      refine List.pairwise_cons.2 ⟨fun y hy => ?_, ih2⟩
      have hy2 : y ∈ x :: l := (insertSorted_perm cmp x l).subset hy
      rcases List.mem_cons.1 hy2 with rfl | hyl
      · have : ¬ 0 < sortCompare cmp e y := fun h => by
          have := (hc.flip e hem y hxm).1
          have h5 := (hc.flip y hxm e hem).2 h
          exact hnlt h5
        exact not_lt.1 this
      · exact (List.pairwise_cons.1 hs).1 y hyl

theorem foldl_insertSorted_sorted (l acc : List α) (hc : Consistent cmp (acc ++ l))
    (hs : SortedBy cmp acc) :
    SortedBy cmp (l.foldl (fun acc x => insertSorted cmp x acc) acc) := by
  induction l generalizing acc with
  | nil => simpa using hs
  | cons x l ih =>
    simp only [List.foldl_cons]
    have hc1 : Consistent cmp (x :: acc) := hc.mono cmp (by
      intro a ha
      rcases List.mem_cons.1 ha with rfl | h
      · simp
      · simp [h])
    apply ih
    · refine hc.mono cmp ?_
      intro a ha
      rcases List.mem_append.1 ha with h | h
      · have := (insertSorted_perm cmp x acc).subset h
        rcases List.mem_cons.1 this with rfl | h2
        · simp
        · simp [h2]
      · simp [h]
    · exact insertSorted_sorted cmp hc1 hs

theorem stableSort_sorted (l : List α) (hc : Consistent cmp l) :
    SortedBy cmp (stableSort cmp l) :=
  foldl_insertSorted_sorted cmp l [] (by simpa using hc) List.Pairwise.nil

/-- Inserting `x` leaves the elements of a class of mutually equal elements in order, with `x`
last. -/
theorem insertSorted_filter (p : α → Bool)
    (hp : ∀ a b, p a = true → p b = true → ¬ sortCompare cmp a b < 0)
    {x : α} {l : List α} (hc : Consistent cmp (x :: l)) (hs : SortedBy cmp l) :
    (insertSorted cmp x l).filter p = l.filter p ++ [x].filter p := by
  induction l with
  | nil => simp [insertSorted]
  | cons e l ih =>
    unfold insertSorted
    split
    · rename_i hlt
      by_cases hx : p x = true
      · have hnone : ∀ y ∈ e :: l, ¬ p y = true := fun y hy hpy =>
          hp x y hx hpy (lt_all_of_lt_head cmp hc hs hlt y hy)
        have h0 : (e :: l).filter p = [] := List.filter_eq_nil_iff.2 hnone
        rw [List.filter_cons_of_pos hx, h0]
        simp [hx]
      · simp [List.filter_cons, hx]
    · have hc2 : Consistent cmp (x :: l) := hc.mono cmp (by
        intro a ha
        rcases List.mem_cons.1 ha with rfl | h
        · simp
        · simp [h])
      have ih2 := ih hc2 (List.pairwise_cons.1 hs).2
      by_cases he : p e = true
      · rw [List.filter_cons_of_pos he, List.filter_cons_of_pos he, ih2]
        simp
      · rw [List.filter_cons_of_neg he, List.filter_cons_of_neg he, ih2]

theorem foldl_insertSorted_filter (p : α → Bool)
    (hp : ∀ a b, p a = true → p b = true → ¬ sortCompare cmp a b < 0)
    (l acc : List α) (hc : Consistent cmp (acc ++ l)) (hs : SortedBy cmp acc) :
    (l.foldl (fun acc x => insertSorted cmp x acc) acc).filter p
      = acc.filter p ++ l.filter p := by
  induction l generalizing acc with
  | nil => simp
  | cons x l ih =>
    simp only [List.foldl_cons]
    have hc1 : Consistent cmp (x :: acc) := hc.mono cmp (by
      intro a ha
      rcases List.mem_cons.1 ha with rfl | h
      · simp
      · simp [h])
    rw [ih]
    · rw [insertSorted_filter cmp p hp hc1 hs]
      by_cases hx : p x = true <;> simp [List.filter_cons, hx]
    · refine hc.mono cmp ?_
      intro a ha
      rcases List.mem_append.1 ha with h | h
      · have := (insertSorted_perm cmp x acc).subset h
        rcases List.mem_cons.1 this with rfl | h2
        · simp
        · simp [h2]
      · simp [h]
    · exact insertSorted_sorted cmp hc1 hs

/-- Stability of the reference sort: a class of mutually equal elements keeps its order. -/
theorem stableSort_filter (p : α → Bool)
    (hp : ∀ a b, p a = true → p b = true → ¬ sortCompare cmp a b < 0)
    (l : List α) (hc : Consistent cmp l) :
    (stableSort cmp l).filter p = l.filter p := by
  have h := foldl_insertSorted_filter cmp p hp l [] (by simpa using hc) List.Pairwise.nil
  simpa [stableSort] using h

/-- Inserting at a position that separates the elements not greater than `x` from the
greater ones is what `insertSorted` does. -/
theorem insertSorted_append (x : α) (pre suf : List α)
    (hpre : ∀ e ∈ pre, ¬ sortCompare cmp x e < 0) (hsuf : ∀ e ∈ suf, sortCompare cmp x e < 0) :
    insertSorted cmp x (pre ++ suf) = pre ++ x :: suf := by
  induction pre with
  | nil =>
    cases suf with
    | nil => rfl
    | cons e s => simp [insertSorted, hsuf e (List.mem_cons_self _ _)]
  | cons e pre ih =>
    have h1 : ¬ sortCompare cmp x e < 0 := hpre e (List.mem_cons_self _ _)
    have ih2 := ih fun e he => hpre e (List.mem_cons_of_mem _ he)
    rw [List.cons_append]
    unfold insertSorted
    rw [if_neg h1, ih2, List.cons_append]

theorem searchInsertionPoint_spec (pivot : α) (arr : List α)
    (hmono : ∀ (i j : Nat) (e1 e2 : α), i ≤ j → arr[i]? = some e1 → arr[j]? = some e2 →
      sortCompare cmp pivot e1 < 0 → sortCompare cmp pivot e2 < 0)
    (fuel left right : Nat) (hfuel : right - left ≤ fuel) (hlr : left ≤ right)
    (hr : right ≤ arr.length)
    (hleft : ∀ (j : Nat) (e : α), j < left → arr[j]? = some e → ¬ sortCompare cmp pivot e < 0)
    (hright : ∀ (j : Nat) (e : α), right ≤ j → arr[j]? = some e → sortCompare cmp pivot e < 0) :
    let k := searchInsertionPoint cmp pivot arr fuel left right
    k ≤ arr.length ∧ (∀ (j : Nat) (e : α), j < k → arr[j]? = some e → ¬ sortCompare cmp pivot e < 0)
      ∧ (∀ (j : Nat) (e : α), k ≤ j → arr[j]? = some e → sortCompare cmp pivot e < 0) := by
  induction fuel generalizing left right with
  | zero =>
    have : left = right := by omega
    subst this
    exact ⟨hr, hleft, hright⟩
  | succ fuel ih =>
    simp only [searchInsertionPoint]
    by_cases hlt : left < right
    · simp only [if_pos hlt]
      have hmid : left + (right - left) / 2 < arr.length := by omega
      have hmid2 : left + (right - left) / 2 < right := by omega
      rw [List.getElem?_eq_getElem hmid]
      simp only
      by_cases hord : sortCompare cmp pivot arr[left + (right - left) / 2] < 0
      · simp only [if_pos hord]
        apply ih
        · omega
        · omega
        · omega
        · exact hleft
        · intro j e hj he
          exact hmono _ j _ e hj (List.getElem?_eq_getElem hmid) he hord
      · simp only [if_neg hord]
        apply ih
        · omega
        · omega
        · exact hr
        · intro j e hj he hneg
          have hj2 : j ≤ left + (right - left) / 2 := by omega
          exact hord (hmono j _ e _ hj2 he (List.getElem?_eq_getElem hmid) hneg)
        · exact hright
    · have : left = right := by omega
      subst this
      simp only [if_neg hlt]
      exact ⟨hr, hleft, hright⟩

theorem binaryInsert_eq_insertSorted {x : α} {l : List α} (hc : Consistent cmp (x :: l))
    (hs : SortedBy cmp l) : binaryInsert cmp x l = insertSorted cmp x l := by
  have hmono : ∀ (i j : Nat) (e1 e2 : α), i ≤ j → l[i]? = some e1 → l[j]? = some e2 →
      sortCompare cmp x e1 < 0 → sortCompare cmp x e2 < 0 := by
    intro i j e1 e2 hij h1 h2 hlt
    rcases Nat.eq_or_lt_of_le hij with rfl | hlt2
    · rw [h1] at h2
      cases h2
      exact hlt
    · obtain ⟨hi, rfl⟩ := List.getElem?_eq_some_iff.1 h1
      obtain ⟨hj, rfl⟩ := List.getElem?_eq_some_iff.1 h2
      have hle : sortCompare cmp l[i] l[j] ≤ 0 := (List.pairwise_iff_getElem.1 hs) i j hi hj hlt2
      have hxm : x ∈ x :: l := List.mem_cons_self _ _
      have him : l[i] ∈ x :: l := List.mem_cons_of_mem _ (List.getElem_mem _)
      have hjm : l[j] ∈ x :: l := List.mem_cons_of_mem _ (List.getElem_mem _)
      by_contra hn
      have h3 : ¬ 0 < sortCompare cmp l[j] x := fun h => hn ((hc.flip x hxm _ hjm).2 h)
      have h4 := hc.trans _ him _ hjm x hxm hle (not_lt.1 h3)
      have h5 := (hc.flip x hxm _ him).1 hlt
      omega
  have hspec := searchInsertionPoint_spec cmp x l hmono l.length 0 l.length (by omega)
    (by omega) (le_refl _) (fun j e hj => absurd hj (Nat.not_lt_zero _))
    (fun j e hj he => by
      have := (List.getElem?_eq_some_iff.1 he).1
      omega)
  obtain ⟨hk, hl, hr⟩ := hspec
  unfold binaryInsert
  simp only
  have := insertSorted_append cmp x (l.take (searchInsertionPoint cmp x l l.length 0 l.length))
    (l.drop (searchInsertionPoint cmp x l l.length 0 l.length))
    (by
      intro e he
      obtain ⟨j, hj, rfl⟩ := List.getElem_of_mem he
      rw [List.getElem_take]
      have hj2 : j < searchInsertionPoint cmp x l l.length 0 l.length := by
        simp at hj; omega
      exact hl j _ hj2 (List.getElem?_eq_getElem _))
    (by
      intro e he
      obtain ⟨j, hj, rfl⟩ := List.getElem_of_mem he
      rw [List.getElem_drop]
      exact hr _ _ (Nat.le_add_right _ _) (List.getElem?_eq_getElem _))
  rw [List.take_append_drop] at this
  exact this.symm

theorem binaryInsert_perm (x : α) (l : List α) : (binaryInsert cmp x l).Perm (x :: l) := by
  unfold binaryInsert
  simp only
  refine List.perm_middle.trans ?_
  rw [List.take_append_drop]

theorem foldl_binaryInsert_perm (l acc : List α) :
    (l.foldl (fun acc x => binaryInsert cmp x acc) acc).Perm (acc ++ l) := by
  induction l generalizing acc with
  | nil => simp
  | cons x l ih =>
    simp only [List.foldl_cons]
    refine (ih _).trans ?_
    refine (List.Perm.append_right l (binaryInsert_perm cmp x acc)).trans ?_
    simp only [List.cons_append]
    exact (List.perm_middle).symm

theorem foldl_binaryInsert_eq (l acc : List α) (hc : Consistent cmp (acc ++ l))
    (hs : SortedBy cmp acc) :
    l.foldl (fun acc x => binaryInsert cmp x acc) acc
      = l.foldl (fun acc x => insertSorted cmp x acc) acc := by
  induction l generalizing acc with
  | nil => rfl
  | cons x l ih =>
    simp only [List.foldl_cons]
    have hc1 : Consistent cmp (x :: acc) := hc.mono cmp (by
      intro a ha
      rcases List.mem_cons.1 ha with rfl | h
      · simp
      · simp [h])
    rw [binaryInsert_eq_insertSorted cmp hc1 hs]
    apply ih
    · refine hc.mono cmp ?_
      intro a ha
      rcases List.mem_append.1 ha with h | h
      · have := (insertSorted_perm cmp x acc).subset h
        rcases List.mem_cons.1 this with rfl | h2
        · simp
        · simp [h2]
      · simp [h]
    · exact insertSorted_sorted cmp hc1 hs

end sortLemmas

/-- The reference stable sort meets the contract. -/
theorem referenceSort_conforms : referenceSort.Conforms :=
  ⟨fun cmp l => stableSort_perm cmp l, fun _ _ _ => rfl⟩

/-- Binary insertion sort meets the contract: it rearranges, and under a consistent comparator
it computes the stable sorted order. -/
theorem binaryInsertion_conforms : binaryInsertion.Conforms :=
  ⟨fun cmp l => by
      have h := foldl_binaryInsert_perm cmp l []
      simpa [binaryInsertion, binaryInsertionSort] using h,
   fun cmp l hc => by
      have h := foldl_binaryInsert_eq cmp l [] (by simpa using hc) List.Pairwise.nil
      simpa [binaryInsertion, binaryInsertionSort, stableSort] using h⟩

/-! ## Own properties -/

section objectLemmas
variable {β : Type}

theorem getOwn_nil (k : String) : getOwn ([] : List (String × β)) k = none := rfl

theorem getOwn_cons (e : String × β) (o : List (String × β)) (k : String) :
    getOwn (e :: o) k = if k = e.1 then some e.2 else getOwn o k := by
  obtain ⟨a, b⟩ := e
  unfold getOwn
  rw [List.lookup_cons]
  by_cases h : k = a
  · subst h
    simp
  · have : (k == a) = false := by simpa using h
    simp [this, h]

theorem getOwn_isSome_iff (o : List (String × β)) (k : String) :
    (getOwn o k).isSome = true ↔ k ∈ ownKeys o := by
  induction o with
  | nil => simp [getOwn_nil, ownKeys]
  | cons e o ih =>
    rw [getOwn_cons]
    by_cases h : k = e.1
    · simp [h, ownKeys]
    · simp only [if_neg h, ih]
      simp [ownKeys, h]

theorem getOwn_eq_none_iff (o : List (String × β)) (k : String) :
    getOwn o k = none ↔ k ∉ ownKeys o := by
  rw [← getOwn_isSome_iff]
  cases getOwn o k <;> simp

theorem ownKeys_updateOwn (o : List (String × β)) (k : String) (f : β → β) :
    ownKeys (updateOwn o k f) = ownKeys o := by
  induction o with
  | nil => rfl
  | cons e o ih =>
    simp only [ownKeys, updateOwn, List.map_cons] at ih ⊢
    rw [ih]
    by_cases h : e.1 = k <;> simp [h]

theorem getOwn_updateOwn (o : List (String × β)) (k : String) (f : β → β) (j : String) :
    getOwn (updateOwn o k f) j = if j = k then (getOwn o j).map f else getOwn o j := by
  induction o with
  | nil => simp [updateOwn, getOwn_nil]
  | cons e o ih =>
    have hcons : updateOwn (e :: o) k f
        = (if e.1 = k then (e.1, f e.2) else e) :: updateOwn o k f := rfl
    rw [hcons, getOwn_cons, getOwn_cons, ih]
    by_cases hjk : j = k
    · subst hjk
      by_cases hje : e.1 = j
      · simp [hje]
      · have : ¬ j = e.1 := fun h => hje h.symm
        simp [hje, this]
    · by_cases hek : e.1 = k
      · have : ¬ j = e.1 := fun h => hjk (h.trans hek)
        simp [hek, hjk, this]
      · simp [hek, hjk]

theorem getOwn_append_single (o : List (String × β)) (k : String) (v : β) (j : String) :
    getOwn (o ++ [(k, v)]) j
      = match getOwn o j with
        | some x => some x
        | none => if j = k then some v else none := by
  induction o with
  | nil => simp [getOwn_cons, getOwn_nil]
  | cons e o ih =>
    rw [List.cons_append, getOwn_cons, getOwn_cons, ih]
    by_cases h : j = e.1 <;> simp [h]

theorem ownKeys_append_single (o : List (String × β)) (k : String) (v : β) :
    ownKeys (o ++ [(k, v)]) = ownKeys o ++ [k] := by
  simp [ownKeys]

/-- The result of `Object.keys` lists the own keys, each once. -/
theorem objectKeys_perm (o : List (String × β)) : (objectKeys o).Perm (ownKeys o) := by
  unfold objectKeys
  refine (List.Perm.append_right _ (List.perm_insertionSort _ _)).trans ?_
  exact List.filter_append_perm _ _

theorem mem_objectKeys (o : List (String × β)) (k : String) :
    k ∈ objectKeys o ↔ k ∈ ownKeys o :=
  (objectKeys_perm o).mem_iff

theorem objectKeys_length (o : List (String × β)) : (objectKeys o).length = o.length := by
  rw [(objectKeys_perm o).length_eq]
  simp [ownKeys]

theorem objectKeys_nodup (o : List (String × β)) (h : (ownKeys o).Nodup) :
    (objectKeys o).Nodup :=
  (objectKeys_perm o).nodup_iff.2 h

end objectLemmas

/-! ## Grouping the rows -/

section parseLemmas
variable {Num : Type} (B : Builtins Num)

theorem samplesOf_cons (row : ShipRow) (rows : List ShipRow) (k : String) :
    samplesOf B (row :: rows) k
      = (if row.site_name = k then [toSample B row] else []) ++ samplesOf B rows k := by
  unfold samplesOf
  by_cases h : row.site_name = k <;> simp [List.filter_cons, h]

theorem pushRow_ok {sd next : ShipData Num} {row : ShipRow}
    (h : pushRow B sd row = .ok next) :
    (∀ k, (getOwn next k).getD [] = (getOwn sd k).getD []
        ++ (if row.site_name = k then [toSample B row] else []))
    ∧ (∀ k, k ∈ ownKeys next ↔ k ∈ ownKeys sd ∨ k = row.site_name)
    ∧ ((ownKeys sd).Nodup → (ownKeys next).Nodup)
    ∧ (row.site_name ∈ objectPrototypeNames → row.site_name ∈ ownKeys sd) := by
  unfold pushRow at h
  simp only at h
  by_cases hown : (getOwn sd row.site_name).isSome = true
  · rw [if_pos hown] at h
    cases h
    have hmem : row.site_name ∈ ownKeys sd := (getOwn_isSome_iff sd _).1 hown
    refine ⟨fun k => ?_, fun k => ?_, fun hnd => ?_, fun _ => hmem⟩
    · rw [getOwn_updateOwn]
      by_cases hk : k = row.site_name
      · subst hk
        obtain ⟨v, hv⟩ := Option.isSome_iff_exists.1 hown
        simp [hv]
      · have hk2 : ¬ row.site_name = k := fun h => hk h.symm
        simp [hk, hk2]
    · rw [ownKeys_updateOwn]
      constructor
      · exact Or.inl
      · rintro (h | h)
        · exact h
        · exact h ▸ hmem
    · rw [ownKeys_updateOwn]
      exact hnd
  · rw [if_neg hown] at h
    by_cases hproto : row.site_name ∈ objectPrototypeNames
    · rw [if_pos hproto] at h
      cases h
    · rw [if_neg hproto] at h
      cases h
      have hnone : getOwn sd row.site_name = none := by
        cases hg : getOwn sd row.site_name with
        | none => rfl
        | some v => rw [hg] at hown; simp at hown
      have hnmem : row.site_name ∉ ownKeys sd := (getOwn_eq_none_iff sd _).1 hnone
      refine ⟨fun k => ?_, fun k => ?_, fun hnd => ?_, fun hp => absurd hp hproto⟩
      · rw [getOwn_append_single]
        by_cases hk : k = row.site_name
        · subst hk
          simp [hnone]
        · have hk2 : ¬ row.site_name = k := fun h => hk h.symm
          cases hg : getOwn sd k <;> simp [hk, hk2]
      · rw [ownKeys_append_single]
        simp
      · rw [ownKeys_append_single]
        exact List.Nodup.append hnd (List.nodup_singleton _) (by
          intro a ha hb
          rw [List.mem_singleton] at hb
          exact hnmem (hb ▸ ha))

theorem pushRow_ok_of (sd : ShipData Num) (row : ShipRow)
    (h : row.site_name ∈ objectPrototypeNames → row.site_name ∈ ownKeys sd) :
    ∃ next, pushRow B sd row = .ok next := by
  unfold pushRow
  simp only
  by_cases hown : (getOwn sd row.site_name).isSome = true
  · rw [if_pos hown]
    exact ⟨_, rfl⟩
  · rw [if_neg hown]
    by_cases hproto : row.site_name ∈ objectPrototypeNames
    · exact absurd ((getOwn_isSome_iff sd _).2 (h hproto)) hown
    · rw [if_neg hproto]
      exact ⟨_, rfl⟩

/-- What the first loop of `parseShipData` builds when it runs to its end. -/
theorem groupRows_ok {rows : List ShipRow} {sd0 sd : ShipData Num}
    (h : groupRows B sd0 rows = .ok sd) :
    (∀ k, (getOwn sd k).getD [] = (getOwn sd0 k).getD [] ++ samplesOf B rows k)
    ∧ (∀ k, k ∈ ownKeys sd ↔ k ∈ ownKeys sd0 ∨ ∃ row ∈ rows, row.site_name = k)
    ∧ ((ownKeys sd0).Nodup → (ownKeys sd).Nodup) := by
  induction rows generalizing sd0 with
  | nil =>
    simp only [groupRows] at h
    cases h
    refine ⟨fun k => by simp [samplesOf], fun k => by simp, fun hnd => hnd⟩
  | cons row rows ih =>
    simp only [groupRows] at h
    cases hp : pushRow B sd0 row with
    | error e => rw [hp] at h; cases h
    | ok next =>
      rw [hp] at h
      obtain ⟨h1, h2, h3, _⟩ := pushRow_ok B hp
      obtain ⟨i1, i2, i3⟩ := ih h
      refine ⟨fun k => ?_, fun k => ?_, fun hnd => i3 (h3 hnd)⟩
      · rw [i1, h1, samplesOf_cons, List.append_assoc]
      · rw [i2, h2]
        constructor
        · rintro ((h | h) | ⟨r, hr, hk⟩)
          · exact Or.inl h
          · exact Or.inr ⟨row, List.mem_cons_self _ _, h.symm⟩
          · exact Or.inr ⟨r, List.mem_cons_of_mem _ hr, hk⟩
        · rintro (h | ⟨r, hr, hk⟩)
          · exact Or.inl (Or.inl h)
          · rcases List.mem_cons.1 hr with rfl | hr2
            · exact Or.inl (Or.inr hk.symm)
            · exact Or.inr ⟨r, hr2, hk⟩

/-- The first loop runs to its end when no row carries an inherited property name. -/
theorem groupRows_ok_of {rows : List ShipRow} (sd0 : ShipData Num)
    (h : ∀ row ∈ rows, row.site_name ∉ objectPrototypeNames) :
    ∃ sd, groupRows B sd0 rows = .ok sd := by
  induction rows generalizing sd0 with
  | nil => exact ⟨sd0, rfl⟩
  | cons row rows ih =>
    obtain ⟨next, hn⟩ := pushRow_ok_of B sd0 row
      (fun hp => absurd hp (h row (List.mem_cons_self _ _)))
    obtain ⟨sd, hsd⟩ := ih next (fun r hr => h r (List.mem_cons_of_mem _ hr))
    refine ⟨sd, ?_⟩
    simp only [groupRows, hn]
    exact hsd

/-- The first loop throws when a row carries an inherited property name. -/
theorem groupRows_error_of {rows : List ShipRow} (sd0 : ShipData Num)
    (hkeys : ∀ k ∈ ownKeys sd0, k ∉ objectPrototypeNames)
    (h : ∃ row ∈ rows, row.site_name ∈ objectPrototypeNames) :
    ∃ e, groupRows B sd0 rows = .error e := by
  induction rows generalizing sd0 with
  | nil =>
    obtain ⟨r, hr, _⟩ := h
    cases hr
  | cons row rows ih =>
    cases hp : pushRow B sd0 row with
    | error e => exact ⟨e, by simp only [groupRows, hp]⟩
    | ok next =>
      obtain ⟨_, h2, _, h4⟩ := pushRow_ok B hp
      have hrow : row.site_name ∉ objectPrototypeNames := fun hp2 => hkeys _ (h4 hp2) hp2
      have hkeys2 : ∀ k ∈ ownKeys next, k ∉ objectPrototypeNames := by
        intro k hk
        rcases (h2 k).1 hk with h | h
        · exact hkeys k h
        · exact h ▸ hrow
      obtain ⟨r, hr, hrp⟩ := h
      have hr2 : r ∈ rows := by
        rcases List.mem_cons.1 hr with rfl | h
        · exact absurd hrp hrow
        · exact h
      obtain ⟨e, he⟩ := ih next hkeys2 ⟨r, hr2, hrp⟩
      exact ⟨e, by simp only [groupRows, hp]; exact he⟩

/-! ## Sorting the tracks -/

theorem foldl_updateOwn_sort (S : ArraySort) (keys : List String) (hnd : keys.Nodup)
    (sd : ShipData Num) :
    keys.foldl (fun o shipId => updateOwn o shipId fun track => S.sort byTimestamp track) sd
      = sd.map fun e => if e.1 ∈ keys then (e.1, S.sort byTimestamp e.2) else e := by
  induction keys generalizing sd with
  | nil => simp
  | cons k keys ih =>
    rw [List.foldl_cons, ih (List.nodup_cons.1 hnd).2]
    have hk : k ∉ keys := (List.nodup_cons.1 hnd).1
    unfold updateOwn
    rw [List.map_map]
    apply List.map_congr_left
    intro e _
    simp only [Function.comp]
    by_cases h1 : e.1 = k
    · have h2 : e.1 ∉ keys := h1 ▸ hk
      simp [h1, hk]
    · by_cases h2 : e.1 ∈ keys
      · simp [h1, h2]
      · simp [h1, h2]

theorem sortTracks_eq (S : ArraySort) (sd : ShipData Num) (hnd : (ownKeys sd).Nodup) :
    sortTracks S sd = sd.map fun e => (e.1, S.sort byTimestamp e.2) := by
  unfold sortTracks
  rw [foldl_updateOwn_sort S _ (objectKeys_nodup sd hnd)]
  apply List.map_congr_left
  intro e he
  have : e.1 ∈ objectKeys sd := (mem_objectKeys sd e.1).2 (List.mem_map_of_mem _ he)
  simp [this]

theorem ownKeys_map_snd {β γ : Type} (o : List (String × β)) (f : β → γ) :
    ownKeys (o.map fun e => (e.1, f e.2)) = ownKeys o := by
  simp [ownKeys, List.map_map, Function.comp]

theorem getOwn_map_snd {β γ : Type} (o : List (String × β)) (f : β → γ) (k : String) :
    getOwn (o.map fun e => (e.1, f e.2)) k = (getOwn o k).map f := by
  induction o with
  | nil => simp [getOwn_nil]
  | cons e o ih =>
    rw [List.map_cons, getOwn_cons, getOwn_cons, ih]
    by_cases h : k = e.1 <;> simp [h]

/-- What `parseShipData` hands to `setShipData`: the keys are the identifiers of the rows,
each once, and the track of a key is the sorted list of the samples of its rows. -/
theorem parseShipData_ok (S : ArraySort) {rows : List ShipRow} {shipData : ShipData Num}
    (h : parseShipData B S rows = .ok shipData) :
    (ownKeys shipData).Nodup
    ∧ (∀ k, k ∈ ownKeys shipData ↔ ∃ row ∈ rows, row.site_name = k)
    ∧ (∀ k, k ∈ ownKeys shipData →
        getOwn shipData k = some (S.sort byTimestamp (samplesOf B rows k))) := by
  unfold parseShipData at h
  cases hg : groupRows B [] rows with
  | error e => rw [hg] at h; cases h
  | ok sd =>
    rw [hg] at h
    simp only at h
    cases h
    obtain ⟨g1, g2, g3⟩ := groupRows_ok B hg
    have hnd : (ownKeys sd).Nodup := g3 List.nodup_nil
    rw [sortTracks_eq S sd hnd]
    refine ⟨by rw [ownKeys_map_snd]; exact hnd, fun k => ?_, fun k hk => ?_⟩
    · rw [ownKeys_map_snd, g2]
      simp [ownKeys]
    · rw [ownKeys_map_snd] at hk
      rw [getOwn_map_snd]
      obtain ⟨v, hv⟩ := Option.isSome_iff_exists.1 ((getOwn_isSome_iff sd k).2 hk)
      have := g1 k
      rw [hv] at this
      simp [getOwn_nil] at this
      rw [hv, this]
      rfl

/-- The function `parseShipData` completes exactly when no row carries a property name
inherited from `Object.prototype`. -/
theorem parseShipData_isOk_iff (S : ArraySort) (rows : List ShipRow) :
    (∃ shipData, parseShipData B S rows = .ok shipData)
      ↔ ∀ row ∈ rows, row.site_name ∉ objectPrototypeNames := by
  constructor
  · rintro ⟨sd, h⟩ row hrow hp
    obtain ⟨e, he⟩ := groupRows_error_of B ([] : ShipData Num) (by simp [ownKeys])
      ⟨row, hrow, hp⟩
    unfold parseShipData at h
    rw [he] at h
    cases h
  · intro h
    obtain ⟨sd, hsd⟩ := groupRows_ok_of B ([] : ShipData Num) h
    exact ⟨sortTracks S sd, by unfold parseShipData; rw [hsd]⟩

end parseLemmas

/-! ## The comparator on tracks with valid dates -/

section trackLemmas
variable {Num : Type}

theorem byTimestamp_consistent (l : List (Sample Num))
    (h : ∀ s ∈ l, s.ec_timestamp.time.isSome = true) : Consistent byTimestamp l := by
  have key : ∀ a ∈ l, ∀ b ∈ l, ∃ x y : Int, a.ec_timestamp.time = some x
      ∧ b.ec_timestamp.time = some y ∧ byTimestamp a b = some (x - y) := by
    intro a ha b hb
    obtain ⟨x, hx⟩ := Option.isSome_iff_exists.1 (h a ha)
    obtain ⟨y, hy⟩ := Option.isSome_iff_exists.1 (h b hb)
    exact ⟨x, y, hx, hy, by simp [byTimestamp, JSDate.sub, hx, hy]⟩
  refine ⟨fun a ha b hb => ?_, fun a ha b hb => ?_, fun a ha b hb c hc => ?_⟩
  · obtain ⟨x, y, _, _, h3⟩ := key a ha b hb
    simp [h3]
  · obtain ⟨x, y, hx, hy, h3⟩ := key a ha b hb
    obtain ⟨y2, x2, hy2, hx2, h4⟩ := key b hb a ha
    rw [hy] at hy2
    rw [hx] at hx2
    cases hy2
    cases hx2
    simp only [sortCompare, h3, h4, Option.getD_some]
    omega
  · obtain ⟨x, y, hx, hy, h3⟩ := key a ha b hb
    obtain ⟨y2, z, hy2, hz, h4⟩ := key b hb c hc
    obtain ⟨x2, z2, hx2, hz2, h5⟩ := key a ha c hc
    rw [hy] at hy2
    rw [hx] at hx2
    rw [hz] at hz2
    cases hy2
    cases hx2
    cases hz2
    simp only [sortCompare, h3, h4, h5, Option.getD_some]
    omega

theorem pairwise_le_of_sortedBy (l : List (Sample Num))
    (h : ∀ s ∈ l, s.ec_timestamp.time.isSome = true) (hs : SortedBy byTimestamp l) :
    (l.map Sample.ec_timestamp).Pairwise JSDate.le := by
  rw [List.pairwise_map]
  refine List.Pairwise.imp_of_mem ?_ hs
  intro a b ha hb hab
  obtain ⟨x, hx⟩ := Option.isSome_iff_exists.1 (h a ha)
  obtain ⟨y, hy⟩ := Option.isSome_iff_exists.1 (h b hb)
  simp only [sortCompare, byTimestamp, JSDate.sub, hx, hy, Option.getD_some] at hab
  simp only [JSDate.le, hx, hy]
  omega

theorem samplesOf_valid (B : Builtins Num) (rows : List ShipRow) (k : String)
    (h : ∀ row ∈ rows, row.site_name = k → (B.newDate row.ec_timestamp).time.isSome = true) :
    ∀ s ∈ samplesOf B rows k, s.ec_timestamp.time.isSome = true := by
  intro s hs
  unfold samplesOf at hs
  obtain ⟨row, hrow, rfl⟩ := List.mem_map.1 hs
  have := List.mem_filter.1 hrow
  exact h row this.1 (by simpa using this.2)

/-- The track of a ship whose rows all carry valid dates is sorted by timestamp and keeps
samples of equal timestamp in row order. -/
theorem track_of_valid (B : Builtins Num) (S : ArraySort) (hS : S.Conforms)
    {rows : List ShipRow} {shipData : ShipData Num}
    (h : parseShipData B S rows = .ok shipData) (k : String) (hk : k ∈ ownKeys shipData)
    (hvalid : ∀ row ∈ rows, row.site_name = k →
      (B.newDate row.ec_timestamp).time.isSome = true) :
    ∃ track, getOwn shipData k = some track
      ∧ (track.map Sample.ec_timestamp).Pairwise JSDate.le
      ∧ ∀ d : JSDate, track.filter (fun s => decide (s.ec_timestamp = d))
          = (samplesOf B rows k).filter (fun s => decide (s.ec_timestamp = d)) := by
  obtain ⟨_, _, h3⟩ := parseShipData_ok B S h
  have hv := samplesOf_valid B rows k hvalid
  have hc := byTimestamp_consistent _ hv
  refine ⟨_, h3 k hk, ?_, fun d => ?_⟩
  · rw [hS.stable _ _ hc]
    refine pairwise_le_of_sortedBy _ ?_ (stableSort_sorted _ _ hc)
    intro s hs
    exact hv s ((stableSort_perm _ _).subset hs)
  · rw [hS.stable _ _ hc]
    refine stableSort_filter _ _ ?_ _ hc
    intro a b ha hb
    have ha2 : a.ec_timestamp = d := by simpa using ha
    have hb2 : b.ec_timestamp = d := by simpa using hb
    simp only [sortCompare, byTimestamp, JSDate.sub, ha2, hb2]
    cases d.time <;> simp

end trackLemmas

/-! ## The claims on the ship track builder -/

/-- C1: for rows whose `ec_timestamp` cells all parse to valid dates, every key of the mapping
built by `parseShipData` has a track whose timestamps are non-decreasing from the first sample
to the last. -/
theorem parseShipData_timestamps_nondecreasing {Num : Type} (B : Builtins Num) (S : ArraySort)
    (hS : S.Conforms) (rows : List ShipRow) (shipData : ShipData Num)
    (hvalid : ∀ row ∈ rows, (B.newDate row.ec_timestamp).time.isSome = true)
    (h : parseShipData B S rows = .ok shipData) :
    ∀ shipId ∈ objectKeys shipData, ∃ track, getOwn shipData shipId = some track
      ∧ (track.map Sample.ec_timestamp).Pairwise JSDate.le := by
  intro shipId hk
  obtain ⟨track, h1, h2, _⟩ := track_of_valid B S hS h shipId
    ((mem_objectKeys shipData shipId).1 hk) (fun row hrow _ => hvalid row hrow)
  exact ⟨track, h1, h2⟩

/-- C1, on three rows of two ships given out of order. -/
theorem parseShipData_timestamps_nondecreasing_witness :
    parseShipData exampleBuiltins referenceSort
        [exampleRow "A" "2024-05-01T00:02:00Z", exampleRow "B" "2024-05-01T00:01:00Z",
         exampleRow "A" "2024-05-01T00:00:00Z"]
      = .ok [("A", [exampleSample 1714521600000, exampleSample 1714521720000]),
             ("B", [exampleSample 1714521660000])]
    ∧ ∀ shipId ∈ objectKeys [("A", [exampleSample 1714521600000, exampleSample 1714521720000]),
          ("B", [exampleSample 1714521660000])],
        ∃ track, getOwn [("A", [exampleSample 1714521600000, exampleSample 1714521720000]),
            ("B", [exampleSample 1714521660000])] shipId = some track
          ∧ (track.map Sample.ec_timestamp).Pairwise JSDate.le :=
  ⟨rfl, parseShipData_timestamps_nondecreasing exampleBuiltins referenceSort
    referenceSort_conforms
    [exampleRow "A" "2024-05-01T00:02:00Z", exampleRow "B" "2024-05-01T00:01:00Z",
     exampleRow "A" "2024-05-01T00:00:00Z"] _ (by decide) rfl⟩

/-- C9: every key of the mapping built by `parseShipData` has a non-empty track, and an
identifier that no row carries is not a key. -/
theorem parseShipData_tracks_nonempty {Num : Type} (B : Builtins Num) (S : ArraySort)
    (hS : S.Conforms) (rows : List ShipRow) (shipData : ShipData Num)
    (h : parseShipData B S rows = .ok shipData) :
    (∀ shipId ∈ objectKeys shipData, ∃ track, getOwn shipData shipId = some track ∧ track ≠ [])
    ∧ (∀ shipId, (∀ row ∈ rows, row.site_name ≠ shipId) → shipId ∉ objectKeys shipData) := by
  obtain ⟨_, h2, h3⟩ := parseShipData_ok B S h
  constructor
  · intro shipId hk
    have hk2 := (mem_objectKeys shipData shipId).1 hk
    refine ⟨_, h3 shipId hk2, ?_⟩
    obtain ⟨row, hrow, hid⟩ := (h2 shipId).1 hk2
    have hmem : toSample B row ∈ samplesOf B rows shipId := by
      unfold samplesOf
      exact List.mem_map_of_mem _ (List.mem_filter.2 ⟨hrow, by simpa using hid⟩)
    intro hnil
    have := (hS.perm byTimestamp (samplesOf B rows shipId)).symm.subset hmem
    rw [hnil] at this
    cases this
  · intro shipId hno hk
    obtain ⟨row, hrow, hid⟩ := (h2 shipId).1 ((mem_objectKeys shipData shipId).1 hk)
    exact hno row hrow hid

/-- C9, on three rows of two ships. -/
theorem parseShipData_tracks_nonempty_witness :
    (∀ shipId ∈ objectKeys [("A", [exampleSample 1714521600000, exampleSample 1714521720000]),
          ("B", [exampleSample 1714521660000])],
        ∃ track, getOwn [("A", [exampleSample 1714521600000, exampleSample 1714521720000]),
            ("B", [exampleSample 1714521660000])] shipId = some track ∧ track ≠ [])
    ∧ (∀ shipId, (∀ row ∈ [exampleRow "A" "2024-05-01T00:02:00Z",
          exampleRow "B" "2024-05-01T00:01:00Z", exampleRow "A" "2024-05-01T00:00:00Z"],
          row.site_name ≠ shipId)
        → shipId ∉ objectKeys [("A", [exampleSample 1714521600000,
            exampleSample 1714521720000]), ("B", [exampleSample 1714521660000])]) :=
  parseShipData_tracks_nonempty exampleBuiltins binaryInsertion binaryInsertion_conforms
    [exampleRow "A" "2024-05-01T00:02:00Z", exampleRow "B" "2024-05-01T00:01:00Z",
     exampleRow "A" "2024-05-01T00:00:00Z"] _ rfl

/-- C10 as stated fails: with binary insertion sort, which meets the ECMAScript contract, the
eight rows of `tieRows` (one of them with an invalid date) give a track in which the sample of
the eighth row precedes the sample of the sixth row, although both carry the timestamp
00:03 and the sixth row comes first in the input. -/
theorem stable_tie_break_fails_with_invalid_date :
    binaryInsertion.Conforms
    ∧ ∃ shipData track, parseShipData exampleBuiltins binaryInsertion tieRows = .ok shipData
      ∧ getOwn shipData "A" = some track
      ∧ track.filter (fun s => decide (s.ec_timestamp = ⟨some 1714521780000⟩))
          = [{ location_latitude := none, location_longitude := none, heading := none,
               ec_timestamp := ⟨some 1714521780000⟩ }, exampleSample 1714521780000]
      ∧ (samplesOf exampleBuiltins tieRows "A").filter
            (fun s => decide (s.ec_timestamp = ⟨some 1714521780000⟩))
          = [exampleSample 1714521780000,
             { location_latitude := none, location_longitude := none, heading := none,
               ec_timestamp := ⟨some 1714521780000⟩ }] :=
  ⟨binaryInsertion_conforms, _, _, rfl, rfl, by decide, by decide⟩

/-- C10, amended: for a ship whose rows all carry valid dates, the samples of its track with a
given timestamp appear in the order of their rows in the input. -/
theorem parseShipData_stable_of_valid {Num : Type} (B : Builtins Num) (S : ArraySort)
    (hS : S.Conforms) (rows : List ShipRow) (shipData : ShipData Num) (shipId : String)
    (h : parseShipData B S rows = .ok shipData) (hk : shipId ∈ objectKeys shipData)
    (hvalid : ∀ row ∈ rows, row.site_name = shipId →
      (B.newDate row.ec_timestamp).time.isSome = true) :
    ∃ track, getOwn shipData shipId = some track
      ∧ ∀ d : JSDate, track.filter (fun s => decide (s.ec_timestamp = d))
          = (samplesOf B rows shipId).filter (fun s => decide (s.ec_timestamp = d)) := by
  obtain ⟨track, h1, _, h3⟩ := track_of_valid B S hS h shipId
    ((mem_objectKeys shipData shipId).1 hk) hvalid
  exact ⟨track, h1, h3⟩

/-- C10 amended, on the rows of `tieRows` without the one that has no date, with the same
sort: the sample of the sixth row now precedes the sample of the last row. -/
theorem parseShipData_stable_of_valid_witness :
    ∃ track, getOwn
        [("A", [exampleSample 1714521600000, exampleSample 1714521660000,
          exampleSample 1714521780000,
          { location_latitude := none, location_longitude := none, heading := none,
            ec_timestamp := ⟨some 1714521780000⟩ }, exampleSample 1714521900000])]
        "A" = some track
      ∧ ∀ d : JSDate, track.filter (fun s => decide (s.ec_timestamp = d))
          = (samplesOf exampleBuiltins
              [exampleRow "A" "2024-05-01T00:00:00Z", exampleRow "A" "2024-05-01T00:01:00Z",
               exampleRow "A" "2024-05-01T00:05:00Z", exampleRow "A" "2024-05-01T00:03:00Z",
               { site_name := "A", location_latitude := "", location_longitude := "",
                 heading := "", ec_timestamp := "2024-05-01T00:03:00Z" }] "A").filter
              (fun s => decide (s.ec_timestamp = d)) :=
  parseShipData_stable_of_valid exampleBuiltins binaryInsertion binaryInsertion_conforms
    _ _ "A" rfl (by decide) (by decide)

/-! ## Rows that carry an inherited property name -/

/-- C2 at the failing input: on the single row whose `site_name` is `constructor`,
`shipData["constructor"]` is the inherited function, no array is created and the call of
`push` throws; `setShipData` is not reached and `constructor` is not a key of any mapping. -/
theorem parseShipData_throws_on_constructor (S : ArraySort) :
    parseShipData exampleBuiltins S [exampleRow "constructor" "2024-05-01T00:00:00Z"]
      = .error "TypeError: shipData[shipId].push is not a function"
    ∧ "constructor" ∉ objectKeys
        (shipDataState exampleBuiltins S [exampleRow "constructor" "2024-05-01T00:00:00Z"]) := by
  refine ⟨rfl, ?_⟩
  have hstate : shipDataState exampleBuiltins S
      [exampleRow "constructor" "2024-05-01T00:00:00Z"] = [] := rfl
  rw [hstate]
  decide

/-- C3 at the failing input: three rows of the ship `toString` with timestamps 00:02, 00:00,
00:01.  The first row makes `parseShipData` throw, so no track is built for the identifier
although three rows carry it. -/
theorem parseShipData_drops_rows_of_toString (S : ArraySort) :
    parseShipData exampleBuiltins S
        [exampleRow "toString" "2024-05-01T00:02:00Z",
         exampleRow "toString" "2024-05-01T00:00:00Z",
         exampleRow "toString" "2024-05-01T00:01:00Z"]
      = .error "TypeError: shipData[shipId].push is not a function"
    ∧ getOwn (shipDataState exampleBuiltins S
        [exampleRow "toString" "2024-05-01T00:02:00Z",
         exampleRow "toString" "2024-05-01T00:00:00Z",
         exampleRow "toString" "2024-05-01T00:01:00Z"]) "toString" = none
    ∧ (samplesOf exampleBuiltins
        [exampleRow "toString" "2024-05-01T00:02:00Z",
         exampleRow "toString" "2024-05-01T00:00:00Z",
         exampleRow "toString" "2024-05-01T00:01:00Z"] "toString").length = 3 :=
  ⟨rfl, rfl, by decide⟩

/-- C5 at the failing input: one port row and one ship row whose `site_name` is `valueOf`.
Both datasets have a row, yet `shipData` stays `{}` and `App` renders the placeholder. -/
theorem appView_loading_on_valueOf (S : ArraySort) :
    appView exampleBuiltins S
        [{ port_name := "X", geo_location_longitude := "72.5", geo_location_latitude := "18.9" }]
        [exampleRow "valueOf" "2024-05-01T00:00:00Z"]
      = View.loading :=
  rfl

/-! ## Rows without inherited property names -/

/-- When no row carries an inherited property name, `parseShipData` completes and the
`site_name` of every row is a key of the mapping. -/
theorem parseShipData_keys_of_plain_names {Num : Type} (B : Builtins Num) (S : ArraySort)
    (rows : List ShipRow) (hplain : ∀ row ∈ rows, row.site_name ∉ objectPrototypeNames) :
    ∃ shipData, parseShipData B S rows = .ok shipData
      ∧ ∀ row ∈ rows, row.site_name ∈ objectKeys shipData := by
  obtain ⟨shipData, h⟩ := (parseShipData_isOk_iff B S rows).2 hplain
  obtain ⟨_, h2, _⟩ := parseShipData_ok B S h
  exact ⟨shipData, h, fun row hrow =>
    (mem_objectKeys shipData _).2 ((h2 _).2 ⟨row, hrow, rfl⟩)⟩

/-- When `parseShipData` completes, the track of every identifier is a rearrangement of the
samples of exactly the rows that carry it (none for an identifier that is not a key). -/
theorem parseShipData_track_perm {Num : Type} (B : Builtins Num) (S : ArraySort)
    (hS : S.Conforms) (rows : List ShipRow) (shipData : ShipData Num)
    (h : parseShipData B S rows = .ok shipData) (shipId : String) :
    ((getOwn shipData shipId).getD []).Perm (samplesOf B rows shipId)
    ∧ ((getOwn shipData shipId).getD []).length
        = (rows.filter fun row => row.site_name = shipId).length := by
  obtain ⟨_, h2, h3⟩ := parseShipData_ok B S h
  have hperm : ((getOwn shipData shipId).getD []).Perm (samplesOf B rows shipId) := by
    by_cases hk : shipId ∈ ownKeys shipData
    · rw [h3 shipId hk]
      exact hS.perm _ _
    · rw [(getOwn_eq_none_iff shipData shipId).2 hk]
      have : samplesOf B rows shipId = [] := by
        unfold samplesOf
        rw [List.map_eq_nil_iff, List.filter_eq_nil_iff]
        intro row hrow hid
        exact hk ((h2 shipId).2 ⟨row, hrow, by simpa using hid⟩)
      rw [this]
      exact List.Perm.refl _
  refine ⟨hperm, ?_⟩
  rw [hperm.length_eq]
  simp [samplesOf]

/-- Rows of one ship with timestamps `[T2, T0, T1]`, `T0 < T1 < T2`, give the track
`[T0, T1, T2]`. -/
theorem parseShipData_orders_three {Num : Type} (B : Builtins Num) (S : ArraySort)
    (hS : S.Conforms) (r2 r0 r1 : ShipRow) (t0 t1 t2 : Int) (shipId : String)
    (hplain : shipId ∉ objectPrototypeNames)
    (hid : r2.site_name = shipId ∧ r0.site_name = shipId ∧ r1.site_name = shipId)
    (h0 : B.newDate r0.ec_timestamp = ⟨some t0⟩) (h1 : B.newDate r1.ec_timestamp = ⟨some t1⟩)
    (h2 : B.newDate r2.ec_timestamp = ⟨some t2⟩) (h01 : t0 < t1) (h12 : t1 < t2) :
    ∃ shipData, parseShipData B S [r2, r0, r1] = .ok shipData
      ∧ getOwn shipData shipId = some [toSample B r0, toSample B r1, toSample B r2] := by
  obtain ⟨e2, e0, e1⟩ := hid
  obtain ⟨shipData, h⟩ := (parseShipData_isOk_iff B S [r2, r0, r1]).2 (by
    intro row hrow
    simp only [List.mem_cons, List.mem_singleton, List.not_mem_nil, or_false] at hrow
    rcases hrow with rfl | rfl | rfl
    · rw [e2]; exact hplain
    · rw [e0]; exact hplain
    · rw [e1]; exact hplain)
  obtain ⟨_, k2, k3⟩ := parseShipData_ok B S h
  refine ⟨shipData, h, ?_⟩
  rw [k3 shipId ((k2 shipId).2 ⟨r2, List.mem_cons_self _ _, e2⟩)]
  have hs : samplesOf B [r2, r0, r1] shipId = [toSample B r2, toSample B r0, toSample B r1] := by
    simp [samplesOf, List.filter_cons, e0, e1, e2]
  have hc : Consistent byTimestamp (samplesOf B [r2, r0, r1] shipId) := by
    apply byTimestamp_consistent
    rw [hs]
    intro s hs2
    simp only [List.mem_cons, List.mem_singleton, List.not_mem_nil, or_false] at hs2
    rcases hs2 with rfl | rfl | rfl <;> simp [toSample, h0, h1, h2]
  rw [hS.stable _ _ hc, hs]
  have c02 : sortCompare byTimestamp (toSample B r0) (toSample B r2) = t0 - t2 := by
    simp [sortCompare, byTimestamp, JSDate.sub, toSample, h0, h2]
  have c12 : sortCompare byTimestamp (toSample B r1) (toSample B r2) = t1 - t2 := by
    simp [sortCompare, byTimestamp, JSDate.sub, toSample, h1, h2]
  have c10 : sortCompare byTimestamp (toSample B r1) (toSample B r0) = t1 - t0 := by
    simp [sortCompare, byTimestamp, JSDate.sub, toSample, h1, h0]
  have l02 : t0 - t2 < 0 := by omega
  have l12 : t1 - t2 < 0 := by omega
  have l10 : ¬ t1 - t0 < 0 := by omega
  simp [stableSort, insertSorted, c02, c12, c10, l02, l12, l10]

/-- When no ship row carries an inherited property name, `App` renders `MapComponent` exactly
when both datasets have a row. -/
theorem appView_ready_iff_of_plain_names {Num : Type} (B : Builtins Num) (S : ArraySort)
    (portRows : List PortRow) (shipRows : List ShipRow)
    (hplain : ∀ row ∈ shipRows, row.site_name ∉ objectPrototypeNames) :
    (appView B S portRows shipRows ≠ View.loading) ↔ (portRows ≠ [] ∧ shipRows ≠ []) := by
  obtain ⟨shipData, h⟩ := (parseShipData_isOk_iff B S shipRows).2 hplain
  obtain ⟨_, h2, _⟩ := parseShipData_ok B S h
  have hkeys : 0 < (objectKeys shipData).length ↔ shipRows ≠ [] := by
    rw [List.length_pos_iff_exists_mem]
    constructor
    · rintro ⟨k, hk⟩ hnil
      obtain ⟨row, hrow, _⟩ := (h2 k).1 ((mem_objectKeys shipData k).1 hk)
      rw [hnil] at hrow
      cases hrow
    · intro hne
      obtain ⟨row, rest, rfl⟩ := List.exists_cons_of_ne_nil hne
      exact ⟨row.site_name, (mem_objectKeys shipData _).2
        ((h2 _).2 ⟨row, List.mem_cons_self _ _, rfl⟩)⟩
  have hports : 0 < portRows.length ↔ portRows ≠ [] := List.length_pos
  unfold appView shipDataState App
  rw [h]
  simp only [gt_iff_lt]
  by_cases hc : 0 < portRows.length ∧ 0 < (objectKeys shipData).length
  · rw [if_pos hc]
    simp only [ne_eq, reduceCtorEq, not_false_eq_true, true_iff]
    exact ⟨hports.1 hc.1, hkeys.1 hc.2⟩
  · rw [if_neg hc]
    simp only [ne_eq, not_true_eq_false, false_iff]
    intro hh
    exact hc ⟨hports.2 hh.1, hkeys.2 hh.2⟩

/-! ## One call of moveShip -/

section moveLemmas
variable {Num : Type}

theorem lookup_cases {β : Type} (o : List (String × β)) (k : String) :
    (∃ v, o.lookup k = some v) ∨ o.lookup k = none := by
  cases o.lookup k with
  | none => exact Or.inr rfl
  | some v => exact Or.inl ⟨v, rfl⟩

theorem remaining_of_none (t : Timer Num)
    (h : t.dataPoints[t.currentIndex]? = none) : t.remaining = [] := by
  unfold Timer.remaining
  apply List.drop_eq_nil_of_le
  have := List.getElem?_eq_none_iff.1 h
  rw [List.length_take]
  omega

theorem remaining_of_some (t : Timer Num) (hi : t.currentIndex < 1440) (p : Sample Num)
    (h : t.dataPoints[t.currentIndex]? = some p) :
    t.remaining = p :: Timer.remaining { t with currentIndex := t.currentIndex + 1 } := by
  unfold Timer.remaining
  obtain ⟨hlt, hp⟩ := List.getElem?_eq_some_iff.1 h
  have hlen : t.currentIndex < (t.dataPoints.take 1440).length := by
    rw [List.length_take]
    omega
  rw [List.drop_eq_getElem_cons hlen]
  simp only [List.getElem_take]
  rw [hp]

theorem remaining_at_cap (t : Timer Num) (hi : 1440 ≤ t.currentIndex) : t.remaining = [] := by
  unfold Timer.remaining
  apply List.drop_eq_nil_of_le
  rw [List.length_take]
  omega

theorem moveShip_of_none (t : Timer Num) (m : MapState Num)
    (h : t.dataPoints[t.currentIndex]? = none) : moveShip t m = m := by
  unfold moveShip
  rw [h]

/-- The calls one `moveShip` issues for the point `p`. -/
theorem moveShip_calls (t : Timer Num) (m : MapState Num) (p : Sample Num)
    (h : t.dataPoints[t.currentIndex]? = some p) :
    (moveShip t m).calls = m.calls ++
      (if (m.getSource t.shipId).isSome then [MapCall.setData t.shipId [shipFeature t.shipId p]]
       else [MapCall.addSource t.shipId [shipFeature t.shipId p],
             MapCall.addLayer t.shipId t.shipId "ship-icon",
             MapCall.loadImage Image.shipimagesrc]) := by
  unfold moveShip
  rw [h]
  rcases lookup_cases m.sources t.shipId with ⟨v, hs⟩ | hs <;>
    by_cases hc : t.currentIndex + 1 < 1440 <;>
    simp [hc, hs, MapState.getSource, MapState.setData, MapState.addSource,
      MapState.addLayer, MapState.loadImage]

theorem moveShip_timers (t : Timer Num) (m : MapState Num) (p : Sample Num)
    (h : t.dataPoints[t.currentIndex]? = some p) :
    (moveShip t m).timers = m.timers ++
      (if t.currentIndex + 1 < 1440 then [{ t with currentIndex := t.currentIndex + 1 }]
       else []) := by
  unfold moveShip
  rw [h]
  rcases lookup_cases m.sources t.shipId with ⟨v, hs⟩ | hs <;>
    by_cases hc : t.currentIndex + 1 < 1440 <;>
    simp [hc, hs, MapState.getSource, MapState.setData, MapState.addSource,
      MapState.addLayer, MapState.loadImage]

theorem moveShip_getSource_self (t : Timer Num) (m : MapState Num) (p : Sample Num)
    (h : t.dataPoints[t.currentIndex]? = some p) :
    ((moveShip t m).getSource t.shipId).isSome = true := by
  unfold moveShip
  rw [h]
  simp only [MapState.getSource]
  have key1 : ∀ v, m.sources.lookup t.shipId = some v →
      ((updateOwn m.sources t.shipId fun _ => [shipFeature t.shipId p]).lookup
        t.shipId).isSome = true := by
    intro v hv
    have := getOwn_updateOwn m.sources t.shipId (fun _ => [shipFeature t.shipId p]) t.shipId
    unfold getOwn at this
    rw [this, hv]
    simp
  have key2 : ((m.sources ++ [(t.shipId, [shipFeature t.shipId p])]).lookup
      t.shipId).isSome = true := by
    have := getOwn_append_single m.sources t.shipId [shipFeature t.shipId p] t.shipId
    unfold getOwn at this
    rw [this]
    cases m.sources.lookup t.shipId <;> simp
  rcases lookup_cases m.sources t.shipId with ⟨v, hs⟩ | hs
  · have k1 := key1 v hs
    by_cases hc : t.currentIndex + 1 < 1440 <;>
      simp [hc, hs, MapState.setData, MapState.addSource, MapState.addLayer,
        MapState.loadImage, k1]
  · by_cases hc : t.currentIndex + 1 < 1440 <;>
      simp [hc, hs, MapState.setData, MapState.addSource, MapState.addLayer,
        MapState.loadImage, key2]

theorem moveShip_getSource_other (t : Timer Num) (m : MapState Num) (id : String)
    (hid : id ≠ t.shipId) :
    ((moveShip t m).getSource id).isSome = (m.getSource id).isSome := by
  unfold moveShip
  cases h : t.dataPoints[t.currentIndex]? with
  | none => rfl
  | some p =>
    simp only [MapState.getSource]
    have key1 : (updateOwn m.sources t.shipId fun _ => [shipFeature t.shipId p]).lookup id
        = m.sources.lookup id := by
      have := getOwn_updateOwn m.sources t.shipId (fun _ => [shipFeature t.shipId p]) id
      unfold getOwn at this
      rw [this, if_neg hid]
    have key2 : (m.sources ++ [(t.shipId, [shipFeature t.shipId p])]).lookup id
        = m.sources.lookup id := by
      have := getOwn_append_single m.sources t.shipId [shipFeature t.shipId p] id
      unfold getOwn at this
      rw [this]
      cases m.sources.lookup id <;> simp [hid]
    rcases lookup_cases m.sources t.shipId with ⟨v, hs⟩ | hs <;>
      by_cases hc : t.currentIndex + 1 < 1440 <;>
      simp [hc, hs, MapState.setData, MapState.addSource, MapState.addLayer,
        MapState.loadImage, key1, key2]

/-- The effect of `moveShip` does not depend on the timers that are pending: it adds its own
at the end of the queue. -/
theorem moveShip_queue (t : Timer Num) (m : MapState Num) (q : List (Timer Num)) :
    moveShip t { m with timers := q ++ m.timers }
      = { moveShip t m with timers := q ++ (moveShip t m).timers } := by
  unfold moveShip
  cases h : t.dataPoints[t.currentIndex]? with
  | none => rfl
  | some p =>
    rcases lookup_cases m.sources t.shipId with ⟨v, hs⟩ | hs <;>
      by_cases hc : t.currentIndex + 1 < 1440 <;>
      simp [hc, hs, MapState.getSource, MapState.setData, MapState.addSource,
        MapState.addLayer, MapState.loadImage]

end moveLemmas

/-! ## The timer queue -/

section runLemmas
variable {Num : Type}

theorem callsOn_append (id : String) (a b : List (MapCall Num)) :
    callsOn id (a ++ b) = callsOn id a ++ callsOn id b := by
  simp [callsOn]

theorem shipIconLoads_append (a b : List (MapCall Num)) :
    shipIconLoads (a ++ b) = shipIconLoads a + shipIconLoads b := by
  simp [shipIconLoads]

theorem shipCalls_present (id : String) (l : List (Sample Num)) :
    shipCalls id true l = l.map fun q => MapCall.setData id [shipFeature id q] := by
  cases l <;> simp [shipCalls]

theorem pendingWork_cons (t : Timer Num) (rest : List (Timer Num)) :
    pendingWork (t :: rest) = t.remaining.length + 1 + pendingWork rest := by
  simp [pendingWork]

theorem pendingWork_append (a b : List (Timer Num)) :
    pendingWork (a ++ b) = pendingWork a + pendingWork b := by
  simp [pendingWork]

theorem flatMap_other (id : String) (b : Bool) (rest : List (Timer Num))
    (h : id ∉ rest.map Timer.shipId) :
    (rest.flatMap fun u => if u.shipId = id then shipCalls id b u.remaining else []) = [] := by
  rw [List.flatMap_eq_nil_iff]
  intro u hu
  have : u.shipId ≠ id := fun he => h (he ▸ List.mem_map_of_mem _ hu)
  simp [this]

theorem runTimers_nil (n : Nat) (m : MapState Num) (h : m.timers = []) :
    runTimers n m = m := by
  cases n with
  | zero => rfl
  | succ n => simp only [runTimers, h]

theorem runTimers_add (a b : Nat) (m : MapState Num) :
    runTimers (a + b) m = runTimers b (runTimers a m) := by
  induction a generalizing m with
  | zero => simp [runTimers]
  | succ a ih =>
    rw [Nat.succ_add]
    cases hq : m.timers with
    | nil =>
      rw [runTimers_nil _ m hq, runTimers_nil _ m hq, runTimers_nil _ m hq]
    | cons t rest =>
      simp only [runTimers, hq]
      exact ih _

/-- What the pending timers do when they are given enough callbacks: the queue runs empty,
every ship issues the calls for the samples it has yet to show, and the ship icon is requested
once for every source that is created. -/
theorem runTimers_spec (fuel : Nat) (m : MapState Num)
    (hnd : (m.timers.map Timer.shipId).Nodup)
    (hidx : ∀ t ∈ m.timers, t.currentIndex < 1440)
    (hfuel : pendingWork m.timers ≤ fuel) :
    (runTimers fuel m).timers = []
    ∧ (∀ id, callsOn id (runTimers fuel m).calls = callsOn id m.calls ++ pendingCallsOn id m)
    ∧ shipIconLoads (runTimers fuel m).calls = shipIconLoads m.calls + pendingLoads m
    ∧ ∃ new, (runTimers fuel m).calls = m.calls ++ new := by
  induction fuel generalizing m with
  | zero =>
    have hq : m.timers = [] := by
      cases hq : m.timers with
      | nil => rfl
      | cons t rest =>
        rw [hq, pendingWork_cons] at hfuel
        omega
    refine ⟨hq, fun id => ?_, ?_, ⟨[], by simp [runTimers]⟩⟩
    · simp [runTimers, pendingCallsOn, hq]
    · simp [runTimers, pendingLoads, hq]
  | succ fuel ih =>
    cases hq : m.timers with
    | nil =>
      rw [runTimers_nil _ m hq]
      refine ⟨hq, fun id => ?_, ?_, ⟨[], by simp⟩⟩
      · simp [pendingCallsOn, hq]
      · simp [pendingLoads, hq]
    | cons t rest =>
      have hstep : runTimers (fuel + 1) m
          = runTimers fuel (moveShip t { m with timers := rest }) := by
        simp only [runTimers, hq]
      rw [hstep]
      rw [hq] at hnd hidx hfuel
      have hti : t.currentIndex < 1440 := hidx t (List.mem_cons_self _ _)
      have hnd2 : (rest.map Timer.shipId).Nodup := by
        rw [List.map_cons] at hnd
        exact (List.nodup_cons.1 hnd).2
      have hnot : t.shipId ∉ rest.map Timer.shipId := by
        rw [List.map_cons] at hnd
        exact (List.nodup_cons.1 hnd).1
      have hidx2 : ∀ u ∈ rest, u.currentIndex < 1440 :=
        fun u hu => hidx u (List.mem_cons_of_mem _ hu)
      rw [pendingWork_cons] at hfuel
      cases hp : t.dataPoints[t.currentIndex]? with
      | none =>
        rw [moveShip_of_none _ _ hp]
        have hrem := remaining_of_none t hp
        obtain ⟨i1, i2, i3, new, i4⟩ := ih { m with timers := rest } hnd2 hidx2 (by
          show pendingWork rest ≤ fuel
          omega)
        refine ⟨i1, fun id => ?_, ?_, ⟨new, i4⟩⟩
        · rw [i2 id]
          simp only [pendingCallsOn, hq, List.flatMap_cons, hrem, shipCalls, MapState.getSource]
          simp
        · rw [i3]
          simp only [pendingLoads, hq, MapState.getSource]
          rw [List.countP_cons_of_neg]
          simp [hrem]
      | some p =>
        have hrem := remaining_of_some t hti p hp
        have hcalls := moveShip_calls t { m with timers := rest } p hp
        have htimers := moveShip_timers t { m with timers := rest } p hp
        have hself := moveShip_getSource_self t { m with timers := rest } p hp
        have hother := fun id hid => moveShip_getSource_other t { m with timers := rest } id hid
        have hsrc : ∀ id, ({ m with timers := rest } : MapState Num).getSource id
            = m.getSource id := fun _ => rfl
        simp only [hsrc] at hcalls hother
        have hcap : ¬ t.currentIndex + 1 < 1440 →
            Timer.remaining { t with currentIndex := t.currentIndex + 1 } = [] :=
          fun hc => remaining_at_cap _ (by simpa using hc)
        obtain ⟨i1, i2, i3, new, i4⟩ := ih (moveShip t { m with timers := rest })
          (by
            rw [htimers]
            by_cases hc : t.currentIndex + 1 < 1440
            · simp only [if_pos hc, List.map_append, List.map_cons, List.map_nil]
              refine List.Nodup.append hnd2 (List.nodup_singleton _) ?_
              intro a ha hb
              rw [List.mem_singleton] at hb
              exact hnot (hb ▸ ha)
            · simpa [if_neg hc] using hnd2)
          (by
            rw [htimers]
            intro u hu
            rcases List.mem_append.1 hu with h | h
            · exact hidx2 u h
            · by_cases hc : t.currentIndex + 1 < 1440
              · rw [if_pos hc, List.mem_singleton] at h
                subst h
                exact hc
              · rw [if_neg hc] at h
                cases h)
          (by
            rw [htimers, pendingWork_append]
            show pendingWork rest + _ ≤ fuel
            have hlen := congrArg List.length hrem
            rw [List.length_cons] at hlen
            by_cases hc : t.currentIndex + 1 < 1440
            · rw [if_pos hc]
              simp only [pendingWork, List.map_cons, List.map_nil, List.sum_cons, List.sum_nil]
              simp only [pendingWork] at hfuel
              omega
            · rw [if_neg hc]
              simp only [pendingWork, List.map_nil, List.sum_nil]
              simp only [pendingWork] at hfuel
              omega)
        have hrest_self : ∀ b, (rest.flatMap fun u =>
            if u.shipId = t.shipId then shipCalls t.shipId b u.remaining else []) = [] :=
          fun b => flatMap_other t.shipId b rest hnot
        have hnew_self : pendingCallsOn t.shipId (moveShip t { m with timers := rest })
            = (Timer.remaining { t with currentIndex := t.currentIndex + 1 }).map
                fun q => MapCall.setData t.shipId [shipFeature t.shipId q] := by
          unfold pendingCallsOn
          rw [htimers, List.flatMap_append, hself]
          show (rest.flatMap _) ++ _ = _
          rw [hrest_self true]
          by_cases hc : t.currentIndex + 1 < 1440
          · simp [if_pos hc, shipCalls_present]
          · simp [if_neg hc, hcap hc]
        have hnew_other : ∀ id, id ≠ t.shipId →
            pendingCallsOn id (moveShip t { m with timers := rest })
              = rest.flatMap fun u =>
                  if u.shipId = id then shipCalls id (m.getSource id).isSome u.remaining
                  else [] := by
          intro id hid
          unfold pendingCallsOn
          rw [htimers, List.flatMap_append, hother id hid]
          show (rest.flatMap _) ++ _ = _
          have hid2 : ¬ t.shipId = id := fun h => hid h.symm
          by_cases hc : t.currentIndex + 1 < 1440
          · simp [if_pos hc, hid2]
          · simp [if_neg hc]
        refine ⟨i1, fun id => ?_, ?_, ?_⟩
        · rw [i2 id, hcalls, callsOn_append, List.append_assoc]
          congr 1
          by_cases hid : id = t.shipId
          · subst hid
            rw [hnew_self]
            simp only [pendingCallsOn, hq, List.flatMap_cons, if_true, hrest_self,
              List.append_nil, hrem]
            cases hpres : (m.getSource t.shipId).isSome <;> simp [callsOn, shipCalls]
          · rw [hnew_other id hid]
            have hid2 : ¬ t.shipId = id := fun h => hid h.symm
            simp only [pendingCallsOn, hq, List.flatMap_cons, if_neg hid2, List.nil_append]
            cases hpres : (m.getSource t.shipId).isSome <;> simp [callsOn, hid2]
        · rw [i3, hcalls, shipIconLoads_append, Nat.add_assoc]
          congr 1
          have hcount : pendingLoads (moveShip t { m with timers := rest })
              = rest.countP fun u => !u.remaining.isEmpty && (m.getSource u.shipId).isNone := by
            unfold pendingLoads
            rw [htimers, List.countP_append]
            have h1 : (List.countP (fun u => !u.remaining.isEmpty
                && ((moveShip t { m with timers := rest }).getSource u.shipId).isNone)
                (if t.currentIndex + 1 < 1440 then
                  [{ t with currentIndex := t.currentIndex + 1 }] else [])) = 0 := by
              by_cases hc : t.currentIndex + 1 < 1440
              · rw [if_pos hc, List.countP_cons_of_neg]
                · rfl
                · have := hself
                  cases hg : (moveShip t { m with timers := rest }).getSource t.shipId with
                  | none => rw [hg] at this; simp at this
                  | some v => simp [hg]
              · rw [if_neg hc]
                rfl
            rw [h1, Nat.add_zero]
            show List.countP _ rest = _
            apply List.countP_congr
            intro u hu
            have hne : u.shipId ≠ t.shipId := fun he => hnot (he ▸ List.mem_map_of_mem _ hu)
            have := hother u.shipId hne
            cases hg : (moveShip t { m with timers := rest }).getSource u.shipId <;>
              cases hg2 : m.getSource u.shipId <;> rw [hg, hg2] at this <;> simp at this ⊢
          rw [hcount]
          simp only [pendingLoads, hq, List.countP_cons, hrem]
          cases hpres : m.getSource t.shipId with
          | none =>
            simp [shipIconLoads]
            omega
          | some v => simp [shipIconLoads]
        · obtain ⟨new2, h5⟩ : ∃ new2, (moveShip t { m with timers := rest }).calls
              = m.calls ++ new2 := ⟨_, hcalls⟩
          exact ⟨new2 ++ new, by rw [i4, h5, List.append_assoc]⟩

end runLemmas

/-! ## addShipsLayer and the whole playback -/

section playLemmas
variable {Num : Type}

theorem foldl_moveShip (ts : List (Timer Num)) (m : MapState Num) :
    ts.foldl (fun m t => moveShip t m) m
      = runTimers ts.length { m with timers := ts ++ m.timers } := by
  induction ts generalizing m with
  | nil => cases m; rfl
  | cons t ts ih =>
    rw [List.foldl_cons, ih]
    simp only [List.length_cons, runTimers, List.cons_append]
    rw [moveShip_queue]

/-- The synchronous calls of `addShipsLayer` are the first callbacks of a queue that holds the
closures of all ships. -/
theorem addShipsLayer_eq (shipData : ShipData Num) (m : MapState Num) :
    addShipsLayer shipData m
      = runTimers (shipClosures shipData).length
          { m with timers := shipClosures shipData ++ m.timers } := by
  unfold addShipsLayer
  by_cases h : (objectKeys shipData).length = 0
  · rw [if_pos h]
    have hnil : objectKeys shipData = [] := List.length_eq_zero.1 h
    simp only [shipClosures, hnil, List.map_nil, List.length_nil, runTimers, List.nil_append]
  · rw [if_neg h, ← foldl_moveShip]
    unfold shipClosures
    rw [List.foldl_map]

theorem addPortsLayer_initial (B : Builtins Num) (portData : List PortRow) :
    addPortsLayer B portData MapState.initial
      = { sources := [("ports", portData.map (portFeature B))]
          layers := ["ports"]
          calls := [MapCall.addSource "ports" (portData.map (portFeature B)),
                    MapCall.addLayer "ports" "ports" "port-icon",
                    MapCall.loadImage Image.portimgssrc]
          shipTime := none
          timers := [] } := by
  simp [addPortsLayer, MapState.initial, MapState.getSource, MapState.addSource,
    MapState.addLayer, MapState.loadImage]

theorem addPortsLayer_getSource (B : Builtins Num) (portData : List PortRow) (id : String) :
    ((addPortsLayer B portData MapState.initial).getSource id).isSome
      = decide (id = "ports") := by
  rw [addPortsLayer_initial]
  simp only [MapState.getSource]
  have := getOwn_cons ("ports", portData.map (portFeature B)) [] id
  unfold getOwn at this
  rw [this]
  by_cases h : id = "ports" <;> simp [h]

theorem remaining_length_le (t : Timer Num) : t.remaining.length ≤ 1440 := by
  unfold Timer.remaining
  rw [List.length_drop, List.length_take]
  omega

theorem pendingWork_le (ts : List (Timer Num)) : pendingWork ts ≤ 1441 * ts.length := by
  induction ts with
  | nil => simp [pendingWork]
  | cons t ts ih =>
    rw [pendingWork_cons, List.length_cons]
    have := remaining_length_le t
    omega

theorem shipClosures_length (shipData : ShipData Num) :
    (shipClosures shipData).length = shipData.length := by
  simp [shipClosures, objectKeys_length]

theorem shipClosures_ids (shipData : ShipData Num) :
    (shipClosures shipData).map Timer.shipId = objectKeys shipData := by
  unfold shipClosures
  rw [List.map_map]
  exact List.map_id _

/-- The queue a playback starts from: the map after `addPortsLayer`, with the closures of all
ships pending. -/
theorem playback_eq (B : Builtins Num) (portData : List PortRow) (shipData : ShipData Num) :
    playback B portData shipData
      = runTimers (shipData.length + 1441 * shipData.length)
          { addPortsLayer B portData MapState.initial with timers := shipClosures shipData } := by
  unfold playback styleLoad
  rw [addShipsLayer_eq, ← runTimers_add, shipClosures_length]
  have : (addPortsLayer B portData MapState.initial).timers = [] := by
    rw [addPortsLayer_initial]
  rw [this, List.append_nil]

theorem flatMap_unique {γ : Type} (keys : List String) (hnd : keys.Nodup) (id : String)
    (hid : id ∈ keys) (g : String → List γ) :
    (keys.flatMap fun k => if k = id then g k else []) = g id := by
  induction keys with
  | nil => cases hid
  | cons k keys ih =>
    rw [List.flatMap_cons]
    have hk : k ∉ keys := (List.nodup_cons.1 hnd).1
    by_cases h : k = id
    · subst h
      have : (keys.flatMap fun j => if j = k then g j else []) = [] := by
        rw [List.flatMap_eq_nil_iff]
        intro j hj
        have : j ≠ k := fun he => hk (he ▸ hj)
        simp [this]
      simp [this]
    · have hid2 : id ∈ keys := by
        rcases List.mem_cons.1 hid with he | he
        · exact absurd he.symm h
        · exact he
      simp [h, ih (List.nodup_cons.1 hnd).2 hid2]

theorem getOwn_mem {β : Type} (o : List (String × β)) (k : String) (v : β)
    (h : getOwn o k = some v) : (k, v) ∈ o := by
  induction o with
  | nil => simp [getOwn_nil] at h
  | cons e o ih =>
    rw [getOwn_cons] at h
    by_cases hk : k = e.1
    · rw [if_pos hk] at h
      cases h
      rw [hk]
      exact List.mem_cons_self _ _
    · rw [if_neg hk] at h
      exact List.mem_cons_of_mem _ (ih h)

/-- A whole playback: no timer is left pending, the calls on the source of a ship are those
that show its track up to the cap, and the ship icon is requested once for each ship whose
source is created. -/
theorem playback_spec (B : Builtins Num) (portData : List PortRow) (shipData : ShipData Num)
    (hkeys : (ownKeys shipData).Nodup) :
    (playback B portData shipData).timers = []
    ∧ (∀ shipId track, getOwn shipData shipId = some track →
        callsOn shipId (playbackCalls B portData shipData)
          = shipCalls shipId (decide (shipId = "ports")) (track.take 1440))
    ∧ shipIconLoads (playbackCalls B portData shipData)
        = (objectKeys shipData).countP fun shipId =>
            !((getOwn shipData shipId).getD []).isEmpty && !decide (shipId = "ports") := by
  have hnd : (objectKeys shipData).Nodup := objectKeys_nodup shipData hkeys
  obtain ⟨h1, h2, h3, new, h4⟩ := runTimers_spec (shipData.length + 1441 * shipData.length)
    { addPortsLayer B portData MapState.initial with timers := shipClosures shipData }
    (by show ((shipClosures shipData).map Timer.shipId).Nodup
        rw [shipClosures_ids]; exact hnd)
    (by intro t ht
        obtain ⟨k, _, rfl⟩ := List.mem_map.1 ht
        show 0 < 1440
        omega)
    (by show pendingWork (shipClosures shipData) ≤ _
        have := pendingWork_le (shipClosures shipData)
        rw [shipClosures_length] at this
        omega)
  rw [← playback_eq] at h1 h2 h3 h4
  have hdrop : playbackCalls B portData shipData = new := by
    unfold playbackCalls
    rw [h4]
    show List.drop (addPortsLayer B portData MapState.initial).calls.length
      ((addPortsLayer B portData MapState.initial).calls ++ new) = new
    simp
  have hsplit : (playback B portData shipData).calls
      = (addPortsLayer B portData MapState.initial).calls ++ playbackCalls B portData shipData := by
    rw [hdrop]
    exact h4
  refine ⟨h1, fun shipId track ht => ?_, ?_⟩
  · have h5 := h2 shipId
    rw [hsplit, callsOn_append] at h5
    have h6 := List.append_cancel_left h5
    rw [h6]
    unfold pendingCallsOn
    show ((shipClosures shipData).flatMap fun t =>
      if t.shipId = shipId then
        shipCalls shipId ((addPortsLayer B portData MapState.initial).getSource shipId).isSome
          t.remaining
      else []) = _
    rw [addPortsLayer_getSource]
    unfold shipClosures
    rw [List.flatMap_map]
    have hmem : shipId ∈ objectKeys shipData :=
      (mem_objectKeys shipData shipId).2 ((getOwn_isSome_iff shipData shipId).1 (by simp [ht]))
    have := flatMap_unique (objectKeys shipData) hnd shipId hmem
      (fun k => shipCalls shipId (decide (shipId = "ports"))
        (Timer.remaining ⟨k, (getOwn shipData k).getD [], 0⟩))
    simp only at this
    rw [this]
    simp [Timer.remaining, ht]
  · have h5 := h3
    rw [hsplit, shipIconLoads_append] at h5
    have h6 : shipIconLoads (playbackCalls B portData shipData)
        = pendingLoads { addPortsLayer B portData MapState.initial with
            timers := shipClosures shipData } := by
      have hsame : shipIconLoads ({ addPortsLayer B portData MapState.initial with
            timers := shipClosures shipData } : MapState Num).calls
          = shipIconLoads (addPortsLayer B portData MapState.initial).calls := rfl
      omega
    rw [h6]
    unfold pendingLoads
    show (shipClosures shipData).countP (fun t => !t.remaining.isEmpty
      && ((addPortsLayer B portData MapState.initial).getSource t.shipId).isNone) = _
    unfold shipClosures
    rw [List.countP_map]
    apply List.countP_congr
    intro k _
    have hsrc := addPortsLayer_getSource B portData k
    simp only [Function.comp, Timer.remaining, List.drop_zero]
    cases hg : (addPortsLayer B portData MapState.initial).getSource k <;>
      rw [hg] at hsrc <;> simp at hsrc <;> simp [hsrc]

end playLemmas

/-! ## The claims on the map layers and the playback -/

/-- C6: on a fresh map `addPortsLayer` creates the source `ports` with one feature per port
row, in row order; the feature of a row has the coordinates `[parseFloat longitude,
parseFloat latitude]` and the name `port_name`.  The row (`72.5`, `18.9`, `X`) gives the
coordinates `[parseFloat "72.5", parseFloat "18.9"]`, which are `72.5` and `18.9`, and the
label `X`. -/
theorem addPortsLayer_features {Num : Type} (B : Builtins Num) (portData : List PortRow) :
    (∃ features, (addPortsLayer B portData MapState.initial).getSource "ports" = some features
      ∧ features.length = portData.length
      ∧ ∀ (i : Nat) (port : PortRow), portData[i]? = some port →
          features[i]? = some
            { coordinates := [B.parseFloat port.geo_location_longitude,
                              B.parseFloat port.geo_location_latitude]
              name := port.port_name })
    ∧ (addPortsLayer B
          [{ port_name := "X", geo_location_longitude := "72.5", geo_location_latitude := "18.9" }]
          MapState.initial).getSource "ports"
        = some [{ coordinates := [B.parseFloat "72.5", B.parseFloat "18.9"], name := "X" }]
    ∧ (addPortsLayer exampleBuiltins
          [{ port_name := "X", geo_location_longitude := "72.5", geo_location_latitude := "18.9" }]
          MapState.initial).getSource "ports"
        = some [{ coordinates := [some ⟨725, 1⟩, some ⟨189, 1⟩], name := "X" }] := by
  refine ⟨⟨portData.map (portFeature B), ?_, by simp, ?_⟩, ?_, ?_⟩
  · rw [addPortsLayer_initial]
    rfl
  · intro i port hi
    rw [List.getElem?_map, hi]
    rfl
  · rw [addPortsLayer_initial]
    rfl
  · rw [addPortsLayer_initial]
    rfl

theorem pushedPositions_shipCalls {Num : Type} (shipId : String) (present : Bool)
    (points : List (Sample Num)) :
    pushedPositions (shipCalls shipId present points)
      = points.map fun s => [s.location_longitude, s.location_latitude] := by
  have hmap : ∀ l : List (Sample Num),
      pushedPositions (l.map fun q => MapCall.setData shipId [shipFeature shipId q])
        = l.map fun s => [s.location_longitude, s.location_latitude] := by
    intro l
    induction l with
    | nil => rfl
    | cons q l ih =>
      simp only [pushedPositions, List.map_cons, List.flatMap_cons] at ih ⊢
      rw [ih]
      rfl
  cases points with
  | nil => rfl
  | cons p ps =>
    have := hmap ps
    cases present <;>
      simp only [shipCalls, pushedPositions, List.flatMap_append, List.flatMap_cons,
        List.flatMap_nil, if_true, if_false, Bool.false_eq_true] at this ⊢ <;>
      rw [this] <;> rfl

/-- C4: for a ship with the track `track`, the positions pushed to the renderer on the source
of the ship during a whole playback are `[location_longitude, location_latitude]` of the
first `min n 1440` samples of the track, in track order; afterwards no timer is pending and
further turns of the event loop change nothing. -/
theorem playback_pushes_track {Num : Type} (B : Builtins Num) (portData : List PortRow)
    (shipData : ShipData Num) (hkeys : (ownKeys shipData).Nodup) (shipId : String)
    (track : List (Sample Num)) (ht : getOwn shipData shipId = some track) :
    pushedPositions (callsOn shipId (playbackCalls B portData shipData))
        = (track.take 1440).map (fun s => [s.location_longitude, s.location_latitude])
    ∧ (pushedPositions (callsOn shipId (playbackCalls B portData shipData))).length
        = min track.length 1440
    ∧ (playback B portData shipData).timers = []
    ∧ ∀ n, runTimers n (playback B portData shipData) = playback B portData shipData := by
  obtain ⟨h1, h2, _⟩ := playback_spec B portData shipData hkeys
  have hpos : pushedPositions (callsOn shipId (playbackCalls B portData shipData))
      = (track.take 1440).map (fun s => [s.location_longitude, s.location_latitude]) := by
    rw [h2 shipId track ht, pushedPositions_shipCalls]
  refine ⟨hpos, ?_, h1, fun n => runTimers_nil n _ h1⟩
  rw [hpos, List.length_map, List.length_take]
  exact Nat.min_comm _ _

/-- C4, on a track of three samples: three positions are pushed. -/
theorem playback_pushes_track_witness :
    pushedPositions (callsOn "A" (playbackCalls exampleBuiltins
        [{ port_name := "X", geo_location_longitude := "72.5", geo_location_latitude := "18.9" }]
        [("A", [exampleSample 1714521600000, exampleSample 1714521660000,
                exampleSample 1714521720000])]))
      = [[some ⟨725, 1⟩, some ⟨189, 1⟩], [some ⟨725, 1⟩, some ⟨189, 1⟩],
         [some ⟨725, 1⟩, some ⟨189, 1⟩]]
    ∧ (pushedPositions (callsOn "A" (playbackCalls exampleBuiltins
        [{ port_name := "X", geo_location_longitude := "72.5", geo_location_latitude := "18.9" }]
        [("A", [exampleSample 1714521600000, exampleSample 1714521660000,
                exampleSample 1714521720000])]))).length = 3 :=
  have h := playback_pushes_track exampleBuiltins
    [{ port_name := "X", geo_location_longitude := "72.5", geo_location_latitude := "18.9" }]
    [("A", [exampleSample 1714521600000, exampleSample 1714521660000,
            exampleSample 1714521720000])]
    (by decide) "A" _ rfl
  ⟨h.1, h.2.1⟩

/-- C7 as stated fails: with two ships the ship icon is requested twice. -/
theorem ship_icon_loaded_twice_for_two_ships :
    shipIconLoads (playbackCalls exampleBuiltins
        [{ port_name := "X", geo_location_longitude := "72.5", geo_location_latitude := "18.9" }]
        [("A", [exampleSample 1714521600000]), ("B", [exampleSample 1714521660000])]) = 2 := by
  decide

/-- C7, amended: on a map that holds only the source `ports`, for a mapping with distinct
keys, non-empty tracks and no ship called `ports`, the ship icon is requested once for every
ship identifier. -/
theorem ship_icon_loaded_once_per_ship {Num : Type} (B : Builtins Num)
    (portData : List PortRow) (shipData : ShipData Num) (hkeys : (ownKeys shipData).Nodup)
    (htracks : ∀ e ∈ shipData, e.2 ≠ []) (hports : "ports" ∉ ownKeys shipData) :
    shipIconLoads (playbackCalls B portData shipData) = shipData.length := by
  obtain ⟨_, _, h3⟩ := playback_spec B portData shipData hkeys
  rw [h3, ← objectKeys_length shipData]
  apply List.countP_eq_length.2
  intro k hk
  have hk2 : k ∈ ownKeys shipData := (mem_objectKeys shipData k).1 hk
  obtain ⟨v, hv⟩ := Option.isSome_iff_exists.1 ((getOwn_isSome_iff shipData k).2 hk2)
  have hne : v ≠ [] := htracks (k, v) (getOwn_mem shipData k v hv)
  have hkp : k ≠ "ports" := fun h => hports (h ▸ hk2)
  cases v with
  | nil => exact absurd rfl hne
  | cons a l => simp [hv, hkp]

/-- C7 amended, on two ships: two requests. -/
theorem ship_icon_loaded_once_per_ship_witness :
    shipIconLoads (playbackCalls exampleBuiltins
        [{ port_name := "X", geo_location_longitude := "72.5", geo_location_latitude := "18.9" }]
        [("A", [exampleSample 1714521600000, exampleSample 1714521720000]),
         ("B", [exampleSample 1714521660000])])
      = [("A", [exampleSample 1714521600000, exampleSample 1714521720000]),
         ("B", [exampleSample 1714521660000])].length :=
  ship_icon_loaded_once_per_ship exampleBuiltins _ _ (by decide) (by decide) (by decide)

/-- C8 as stated fails: for a ship called `ports` the source exists when its first tick runs,
so the playback never creates a source or a layer for it; both ticks replace the data of the
ports source. -/
theorem ship_named_ports_creates_no_source :
    callsOn "ports" (playbackCalls exampleBuiltins
        [{ port_name := "X", geo_location_longitude := "72.5", geo_location_latitude := "18.9" }]
        [("ports", [exampleSample 1714521600000, exampleSample 1714521660000])])
      = [MapCall.setData "ports" [shipFeature "ports" (exampleSample 1714521600000)],
         MapCall.setData "ports" [shipFeature "ports" (exampleSample 1714521660000)]] := by
  decide

/-- C8, amended: on a map that holds only the source and layer `ports`, for a ship identifier
other than `ports` with a non-empty track, the calls of a whole playback on the identifier
are: `addSource` and `addLayer` for the first sample, then one `setData` with a single
feature for every later sample below the cap. -/
theorem ship_source_created_once {Num : Type} (B : Builtins Num) (portData : List PortRow)
    (shipData : ShipData Num) (hkeys : (ownKeys shipData).Nodup) (shipId : String)
    (track : List (Sample Num)) (ht : getOwn shipData shipId = some track)
    (hne : track ≠ []) (hid : shipId ≠ "ports") :
    ∃ first later, track.take 1440 = first :: later
      ∧ callsOn shipId (playbackCalls B portData shipData)
          = MapCall.addSource shipId [shipFeature shipId first]
            :: MapCall.addLayer shipId shipId "ship-icon"
            :: later.map fun q => MapCall.setData shipId [shipFeature shipId q] := by
  obtain ⟨_, h2, _⟩ := playback_spec B portData shipData hkeys
  cases track with
  | nil => exact absurd rfl hne
  | cons first rest =>
    refine ⟨first, rest.take 1439, rfl, ?_⟩
    rw [h2 shipId _ ht]
    simp [shipCalls, hid]

/-- C8 amended, on the ship `A` with two samples. -/
theorem ship_source_created_once_witness :
    ∃ first later,
      [exampleSample 1714521600000, exampleSample 1714521660000].take 1440 = first :: later
      ∧ callsOn "A" (playbackCalls exampleBuiltins
          [{ port_name := "X", geo_location_longitude := "72.5",
             geo_location_latitude := "18.9" }]
          [("A", [exampleSample 1714521600000, exampleSample 1714521660000])])
          = MapCall.addSource "A" [shipFeature "A" first]
            :: MapCall.addLayer "A" "A" "ship-icon"
            :: later.map fun q => MapCall.setData "A" [shipFeature "A" q] :=
  ship_source_created_once exampleBuiltins _ _ (by decide) "A" _ rfl (by decide) (by decide)

end ShipMap
